import Mathlib

set_option autoImplicit false

namespace ClangFormatDiscover

/-!
Shallow embedding of the clang-format-discover sources: the working
configuration (a flat, insertion-ordered string-to-string dictionary), the
corpus batching and ordered-set-difference helpers from utils.py, the
external-process wrapper from execution.py, the streamed replacements-XML
cost accounting from scoring.py, and the coordinate-search optimizer and
minimizer loops from optimizer.py (together with the legacy variants kept
in the top-level clang_format_discover.py script).
-/

/-- A StyleSettings value (flatdict.FlatDict over flat dotted-path string
keys): an insertion-ordered association list from option name to value.
The Python dict invariant keeps keys unique; every operation below matches
dict behaviour on unique-key lists. -/
abbrev Config := List (String × String)

/-- Dictionary lookup, config.get(key): first binding of the key, if any. -/
def cfgGet : Config → String → Option String
  | [], _ => none
  | (k, v) :: t, key => if k = key then some v else cfgGet t key

/-- Membership test, key in config. -/
def cfgMem (c : Config) (key : String) : Bool :=
  (cfgGet c key).isSome

/-- Dictionary assignment, config[key] = val: overwrites the binding in
place when the key is present, appends a fresh binding otherwise. -/
def cfgSet : Config → String → String → Config
  | [], key, val => [(key, val)]
  | (k, v) :: t, key, val =>
      if k = key then (key, val) :: t else (k, v) :: cfgSet t key val

/-- Dictionary deletion, del config[key]: drops the (unique) binding. -/
def cfgDel : Config → String → Config
  | [], _ => []
  | (k, v) :: t, key => if k = key then t else (k, v) :: cfgDel t key

/-- config.keys() in insertion order. -/
def cfgKeys (c : Config) : List String :=
  c.map Prod.fst

/-- utils.ordered_diff: the elements of the first sequence that do not occur
in the second, keeping the first sequence's order. -/
def ordered_diff (first second : List String) : List String :=
  first.filter (fun k => !second.contains k)

/-- Fuel-indexed worker for chunkify; the fuel only makes the recursion
structural, chunkify always supplies enough of it. -/
def chunkifyGo {α : Type} : Nat → List α → Nat → List (List α)
  | 0, _, _ => []
  | _ + 1, _, 0 => []
  | _ + 1, [], _ + 1 => []
  | fuel + 1, a :: t, n + 1 =>
      (a :: t).take (n + 1) :: chunkifyGo fuel ((a :: t).drop (n + 1)) (n + 1)

/-- utils.chunkify: repeatedly slice the iterator into tuples of at most
size elements, stopping at the first empty tuple.  With size = 0 the first
slice is already empty, so the result is empty. -/
def chunkify {α : Type} (l : List α) (size : Nat) : List (List α) :=
  chunkifyGo l.length l size

theorem chunkifyGo_join {α : Type} :
    ∀ (fuel : Nat) (l : List α) (n : Nat), l.length ≤ fuel →
      (chunkifyGo fuel l (n + 1)).flatten = l := by
  intro fuel
  induction fuel with
  | zero =>
      intro l n h
      have : l = [] := List.eq_nil_of_length_eq_zero (Nat.le_zero.mp h)
      subst this
      rfl
  | succ fuel ih =>
      intro l n h
      cases l with
      | nil => rfl
      | cons a t =>
          have hdrop : ((a :: t).drop (n + 1)).length ≤ fuel := by
            rw [List.length_drop]
            simp only [List.length_cons] at h ⊢
            omega
          simp only [chunkifyGo, List.flatten]
          rw [ih _ n hdrop, List.take_append_drop]

theorem chunkifyGo_length {α : Type} :
    ∀ (fuel : Nat) (l : List α) (n : Nat), l.length ≤ fuel →
      (chunkifyGo fuel l (n + 1)).length = (l.length + n) / (n + 1) := by
  intro fuel
  induction fuel with
  | zero =>
      intro l n h
      have : l = [] := List.eq_nil_of_length_eq_zero (Nat.le_zero.mp h)
      subst this
      simp [chunkifyGo, Nat.div_eq_of_lt (Nat.lt_succ_of_le (Nat.le_refl n))]
  | succ fuel ih =>
      intro l n h
      cases l with
      | nil =>
          simp [chunkifyGo, Nat.div_eq_of_lt (Nat.lt_succ_of_le (Nat.le_refl n))]
      | cons a t =>
          have hdrop : ((a :: t).drop (n + 1)).length ≤ fuel := by
            rw [List.length_drop]
            simp only [List.length_cons] at h ⊢
            omega
          simp only [chunkifyGo, List.length_cons]
          rw [ih _ n hdrop]
          rw [List.length_drop]
          simp only [List.length_cons]
          rcases le_or_lt (t.length + 1) (n + 1) with hle | hlt
          · have h1 : t.length + 1 - (n + 1) = 0 := Nat.sub_eq_zero_of_le hle
            rw [h1]
            have h2 : (0 + n) / (n + 1) = 0 :=
              Nat.div_eq_of_lt (by omega)
            rw [h2]
            have h3 : t.length + 1 + n = t.length + (n + 1) := by omega
            rw [h3, Nat.add_div_right _ (by omega : 0 < n + 1)]
            have h4 : t.length / (n + 1) = 0 := Nat.div_eq_of_lt (by omega)
            rw [h4]
          · have h1 : t.length + 1 - (n + 1) + n = (t.length - (n + 1)) + (n + 1) := by
              omega
            rw [h1, Nat.add_div_right _ (by omega : 0 < n + 1)]
            have h2 : t.length + 1 + n = (t.length - (n + 1)) + (n + 1) + (n + 1) := by
              omega
            rw [h2, Nat.add_div_right _ (by omega : 0 < n + 1),
              Nat.add_div_right _ (by omega : 0 < n + 1)]

theorem chunkifyGo_sizes {α : Type} :
    ∀ (fuel : Nat) (l : List α) (n : Nat), l.length ≤ fuel →
      ∀ c ∈ chunkifyGo fuel l (n + 1), c.length ≤ n + 1 ∧ c ≠ [] := by
  intro fuel
  induction fuel with
  | zero =>
      intro l n h
      have : l = [] := List.eq_nil_of_length_eq_zero (Nat.le_zero.mp h)
      subst this
      intro c hc
      simp [chunkifyGo] at hc
  | succ fuel ih =>
      intro l n h
      cases l with
      | nil =>
          intro c hc
          simp [chunkifyGo] at hc
      | cons a t =>
          intro c hc
          simp only [chunkifyGo, List.mem_cons] at hc
          rcases hc with hc | hc
          · subst hc
            constructor
            · rw [List.length_take]
              exact Nat.min_le_left _ _
            · intro hnil
              have := congrArg List.length hnil
              rw [List.length_take] at this
              simp only [List.length_cons, List.length_nil] at this
              omega
          · have hdrop : ((a :: t).drop (n + 1)).length ≤ fuel := by
              rw [List.length_drop]
              simp only [List.length_cons] at h ⊢
              omega
            exact ih _ n hdrop c hc

theorem chunkifyGo_ne_nil {α : Type} (fuel : Nat) (a : α) (t : List α) (n : Nat)
    (h : (a :: t).length ≤ fuel) : chunkifyGo fuel (a :: t) (n + 1) ≠ [] := by
  cases fuel with
  | zero => simp at h
  | succ fuel => simp [chunkifyGo]

theorem chunkifyGo_dropLast {α : Type} :
    ∀ (fuel : Nat) (l : List α) (n : Nat), l.length ≤ fuel →
      ∀ c ∈ (chunkifyGo fuel l (n + 1)).dropLast, c.length = n + 1 := by
  intro fuel
  induction fuel with
  | zero =>
      intro l n h
      have : l = [] := List.eq_nil_of_length_eq_zero (Nat.le_zero.mp h)
      subst this
      intro c hc
      simp [chunkifyGo] at hc
  | succ fuel ih =>
      intro l n h
      cases l with
      | nil =>
          intro c hc
          simp [chunkifyGo] at hc
      | cons a t =>
          intro c hc
          simp only [chunkifyGo] at hc
          rcases hrest : (a :: t).drop (n + 1) with _ | ⟨b, r⟩
          · have : chunkifyGo fuel ((a :: t).drop (n + 1)) (n + 1) = [] := by
              rw [hrest]
              cases fuel <;> rfl
            rw [this] at hc
            simp at hc
          · have hdroplen : ((a :: t).drop (n + 1)).length ≤ fuel := by
              rw [List.length_drop]
              simp only [List.length_cons] at h ⊢
              omega
            have hne : chunkifyGo fuel ((a :: t).drop (n + 1)) (n + 1) ≠ [] := by
              rw [hrest]
              apply chunkifyGo_ne_nil
              rw [← hrest]
              exact hdroplen
            rw [List.dropLast_cons_of_ne_nil hne] at hc
            rcases List.mem_cons.mp hc with hc | hc
            · subst hc
              rw [List.length_take]
              have hlong : n + 1 < (a :: t).length := by
                by_contra hcon
                push_neg at hcon
                rw [List.drop_eq_nil_of_le hcon] at hrest
                exact List.noConfusion hrest
              omega
            · exact ih _ n hdroplen c hc

/-- C8: for a corpus of n files and batch size b > 0, chunkify yields
ceil(n/b) batches whose concatenation in order is the original corpus, each
batch of size b except for a possibly shorter (nonempty) final batch. -/
theorem chunkify_partition {α : Type} (l : List α) (b : Nat) (hb : 0 < b) :
    (chunkify l b).length = (l.length + b - 1) / b ∧
    (chunkify l b).flatten = l ∧
    (∀ c ∈ (chunkify l b).dropLast, c.length = b) ∧
    (∀ c ∈ chunkify l b, c.length ≤ b ∧ c ≠ []) := by
  rcases b with _ | n
  · exact absurd hb (Nat.lt_irrefl 0)
  · refine ⟨?_, ?_, ?_, ?_⟩
    · have heq := chunkifyGo_length l.length l n (Nat.le_refl _)
      have h2 : l.length + (n + 1) - 1 = l.length + n := by omega
      rw [chunkify, heq, h2]
    · exact chunkifyGo_join l.length l n (Nat.le_refl _)
    · exact chunkifyGo_dropLast l.length l n (Nat.le_refl _)
    · exact chunkifyGo_sizes l.length l n (Nat.le_refl _)

/-- Witness for C8 at a concrete corpus of five files and batch size two. -/
theorem chunkify_partition_witness :
    (chunkify [10, 20, 30, 40, 50] 2).length = (5 + 2 - 1) / 2 ∧
    (chunkify [10, 20, 30, 40, 50] 2).flatten = [10, 20, 30, 40, 50] ∧
    (∀ c ∈ (chunkify [10, 20, 30, 40, 50] 2).dropLast, c.length = 2) ∧
    (∀ c ∈ chunkify [10, 20, 30, 40, 50] 2, c.length ≤ 2 ∧ c ≠ []) := by
  have h := chunkify_partition [10, 20, 30, 40, 50] 2 (by decide)
  simpa using h

/-! ## External process execution (execution.py) -/

/-- execution.ProcessRunError: raised by capture_process_output when the
invoked tool exits with a non-zero status; carries the exit status and the
captured standard-error text. -/
structure ProcessRunError where
  returncode : Int
  stderr : String
deriving DecidableEq

/-- The observable result of one external process run: its exit status and
captured output streams (the shallow embedding of a subprocess). -/
structure ProcOutcome where
  returncode : Int
  stdout : String
  stderr : String
deriving DecidableEq

/-- execution.capture_process_output: subprocess.run with check=True returns
captured stdout on exit status zero and raises CalledProcessError otherwise,
which is rewrapped as ProcessRunError(returncode, stderr). -/
def capture_process_output (p : ProcOutcome) : Except ProcessRunError String :=
  if p.returncode = 0 then .ok p.stdout else .error ⟨p.returncode, p.stderr⟩

/-! ## The option catalog (options.py, duplicated in the legacy script) -/

/-- The static option catalog: for each tunable option its ordered list of
legal values (clang-format 13 documentation values). -/
def ALL_TUNEABLE_OPTIONS : List (String × List String) := [
  ("AccessModifierOffset", ["-4", "-3", "-2", "-1", "0"]),
  ("AlignAfterOpenBracket", ["Align", "DontAlign", "AlwaysBreak"]),
  ("AlignArrayOfStructures", ["Left", "Right", "None"]),
  ("AlignConsecutiveAssignments", ["None", "Consecutive", "AcrossEmptyLines", "AcrossComments", "AcrossEmptyLinesAndComments"]),
  ("AlignConsecutiveBitFields", ["None", "Consecutive", "AcrossEmptyLines", "AcrossComments", "AcrossEmptyLinesAndComments"]),
  ("AlignConsecutiveDeclarations", ["None", "Consecutive", "AcrossEmptyLines", "AcrossComments", "AcrossEmptyLinesAndComments"]),
  ("AlignConsecutiveMacros", ["None", "Consecutive", "AcrossEmptyLines", "AcrossComments", "AcrossEmptyLinesAndComments"]),
  ("AlignEscapedNewlines", ["DontAlign", "Left", "Right"]),
  ("AlignOperands", ["DontAlign", "Align", "AlignAfterOperator"]),
  ("AlignTrailingComments", ["false", "true"]),
  ("AllowAllArgumentsOnNextLine", ["false", "true"]),
  ("AllowAllConstructorInitializersOnNextLine", ["false", "true"]),
  ("AllowAllParametersOfDeclarationOnNextLine", ["false", "true"]),
  ("AllowShortBlocksOnASingleLine", ["Never", "Empty", "Always"]),
  ("AllowShortCaseLabelsOnASingleLine", ["false", "true"]),
  ("AllowShortEnumsOnASingleLine", ["false", "true"]),
  ("AllowShortFunctionsOnASingleLine", ["None", "InlineOnly", "Empty", "Inline", "All"]),
  ("AllowShortIfStatementsOnASingleLine", ["Never", "WithoutElse", "OnlyFirstIf", "AllIfsAndElse"]),
  ("AllowShortLambdasOnASingleLine", ["None", "Empty", "Inline", "All"]),
  ("AllowShortLoopsOnASingleLine", ["false", "true"]),
  ("AlwaysBreakAfterDefinitionReturnType", ["None", "All", "TopLevel"]),
  ("AlwaysBreakAfterReturnType", ["None", "All", "TopLevel", "AllDefinitions", "TopLevelDefinitions"]),
  ("AlwaysBreakBeforeMultilineStrings", ["false", "true"]),
  ("AlwaysBreakTemplateDeclarations", ["No", "MultiLine", "Yes"]),
  ("BasedOnStyle", ["LLVM", "Google", "Chromium", "Mozilla", "WebKit", "Microsoft", "GNU"]),
  ("BinPackArguments", ["false", "true"]),
  ("BinPackParameters", ["false", "true"]),
  ("BitFieldColonSpacing", ["Both", "None", "Before", "After"]),
  ("BraceWrapping:AfterCaseLabel", ["false", "true"]),
  ("BraceWrapping:AfterClass", ["false", "true"]),
  ("BraceWrapping:AfterControlStatement", ["Never", "MultiLine", "Always"]),
  ("BraceWrapping:AfterEnum", ["false", "true"]),
  ("BraceWrapping:AfterFunction", ["false", "true"]),
  ("BraceWrapping:AfterNamespace", ["false", "true"]),
  ("BraceWrapping:AfterStruct", ["false", "true"]),
  ("BraceWrapping:AfterUnion", ["false", "true"]),
  ("BraceWrapping:AfterExternBlock", ["false", "true"]),
  ("BraceWrapping:BeforeCatch", ["false", "true"]),
  ("BraceWrapping:BeforeElse", ["false", "true"]),
  ("BraceWrapping:BeforeLambdaBody", ["false", "true"]),
  ("BraceWrapping:BeforeWhile", ["false", "true"]),
  ("BraceWrapping:IndentBraces", ["false", "true"]),
  ("BraceWrapping:SplitEmptyFunction", ["false", "true"]),
  ("BraceWrapping:SplitEmptyRecord", ["false", "true"]),
  ("BraceWrapping:SplitEmptyNamespace", ["false", "true"]),
  ("BreakBeforeBinaryOperators", ["None", "NonAssignment", "All"]),
  ("BreakBeforeConceptDeclarations", ["false", "true"]),
  ("BreakBeforeInheritanceComma", ["false", "true"]),
  ("BreakBeforeTernaryOperators", ["false", "true"]),
  ("BreakConstructorInitializersBeforeComma", ["false", "true"]),
  ("BreakConstructorInitializers", ["BeforeColon", "BeforeComma", "AfterColon"]),
  ("BreakInheritanceList", ["BeforeColon", "BeforeComma", "AfterColon", "AfterComma"]),
  ("BreakStringLiterals", ["false", "true"]),
  ("ColumnLimit", ["80", "120", "0"]),
  ("CompactNamespaces", ["false", "true"]),
  ("ConstructorInitializerAllOnOneLineOrOnePerLine", ["false", "true"]),
  ("ConstructorInitializerIndentWidth", ["0", "2", "3", "4", "6", "8"]),
  ("ContinuationIndentWidth", ["0", "2", "3", "4", "6", "8"]),
  ("Cpp11BracedListStyle", ["false", "true"]),
  ("EmptyLineAfterAccessModifier", ["Never", "Leave", "Always"]),
  ("EmptyLineBeforeAccessModifier", ["Never", "Leave", "LogicalBlock", "Always"]),
  ("FixNamespaceComments", ["false", "true"]),
  ("IncludeBlocks", ["Preserve", "Merge", "Regroup"]),
  ("IndentAccessModifiers", ["false", "true"]),
  ("IndentCaseBlocks", ["false", "true"]),
  ("IndentCaseLabels", ["false", "true"]),
  ("IndentExternBlock", ["AfterExternBlock", "NoIndent", "Indent"]),
  ("IndentGotoLabels", ["false", "true"]),
  ("IndentPPDirectives", ["None", "AfterHash", "BeforeHash"]),
  ("IndentRequires", ["false", "true"]),
  ("IndentWidth", ["2", "3", "4", "8"]),
  ("IndentWrappedFunctionNames", ["false", "true"]),
  ("InsertTrailingCommas", ["None", "Wrapped"]),
  ("KeepEmptyLinesAtTheStartOfBlocks", ["false", "true"]),
  ("LambdaBodyIndentation", ["Signature", "OuterScope"]),
  ("MaxEmptyLinesToKeep", ["1", "2", "3"]),
  ("NamespaceIndentation", ["None", "Inner", "All"]),
  ("PenaltyBreakAssignment", ["2", "100", "1000"]),
  ("PenaltyBreakBeforeFirstCallParameter", ["1", "19", "100"]),
  ("PenaltyBreakComment", ["300"]),
  ("PenaltyBreakFirstLessLess", ["120"]),
  ("PenaltyBreakString", ["1000"]),
  ("PenaltyBreakTemplateDeclaration", ["10"]),
  ("PenaltyExcessCharacter", ["100", "1000000"]),
  ("PenaltyReturnTypeOnItsOwnLine", ["60", "200", "1000"]),
  ("PenaltyIndentedWhitespace", ["0", "1"]),
  ("PointerAlignment", ["Left", "Right", "Middle"]),
  ("ReferenceAlignment", ["Pointer", "Left", "Right", "Middle"]),
  ("ReflowComments", ["false", "true"]),
  ("ShortNamespaceLines", ["0", "1"]),
  ("SortIncludes", ["Never", "CaseSensitive", "CaseInsensitive"]),
  ("SortUsingDeclarations", ["false", "true"]),
  ("SpaceAfterCStyleCast", ["false", "true"]),
  ("SpaceAfterLogicalNot", ["false", "true"]),
  ("SpaceAfterTemplateKeyword", ["false", "true"]),
  ("SpaceAroundPointerQualifiers", ["Default", "Before", "After", "Both"]),
  ("SpaceBeforeAssignmentOperators", ["false", "true"]),
  ("SpaceBeforeCaseColon", ["false", "true"]),
  ("SpaceBeforeCpp11BracedList", ["false", "true"]),
  ("SpaceBeforeCtorInitializerColon", ["false", "true"]),
  ("SpaceBeforeInheritanceColon", ["false", "true"]),
  ("SpaceBeforeParens", ["Never", "ControlStatements", "ControlStatementsExceptControlMacros", "NonEmptyParentheses", "Always"]),
  ("SpaceBeforeRangeBasedForLoopColon", ["false", "true"]),
  ("SpaceInEmptyBlock", ["false", "true"]),
  ("SpaceInEmptyParentheses", ["false", "true"]),
  ("SpacesBeforeTrailingComments", ["0", "1"]),
  ("SpacesInAngles", ["Never", "Always", "Leave"]),
  ("SpacesInCStyleCastParentheses", ["false", "true"]),
  ("SpacesInConditionalStatement", ["false", "true"]),
  ("SpacesInContainerLiterals", ["false", "true"]),
  ("SpacesInParentheses", ["false", "true"]),
  ("SpacesInSquareBrackets", ["false", "true"]),
  ("SpaceBeforeSquareBrackets", ["false", "true"]),
  ("Standard", ["c++03", "c++11", "c++14", "c++17", "c++20", "Latest"]),
  ("UseTab", ["Never", "ForIndentation", "ForContinuationAndIndentation", "AlignWithSpaces", "Always"])]

/-- Keys of the catalog, in catalog order. -/
def allTuneableKeys : List String :=
  ALL_TUNEABLE_OPTIONS.map Prod.fst

/-- The ordered priority subset evaluated in the first search phase. -/
def PRIORITY_OPTIONS : List String :=
  ["BasedOnStyle", "IndentWidth", "UseTab", "SortIncludes", "IncludeBlocks"]

/-- optimizer.get_safe_option_values: the catalog values of the key, with
the value known to conflict with the paired option removed for the two
flagged keys.  The external dump-config round trip that resolves the
effective configuration is passed in as the function eff. -/
def get_safe_option_values (eff : Config → Config) (key : String)
    (current_config : Config) : List String :=
  let safe_values := (ALL_TUNEABLE_OPTIONS.lookup key).getD []
  if key = "BinPackParameters" ∨ key = "InsertTrailingCommas" then
    let effective_config := eff current_config
    if key = "InsertTrailingCommas" ∧
        cfgGet effective_config "BinPackParameters" = some "true" then
      safe_values.erase "Wrapped"
    else if key = "BinPackParameters" ∧
        cfgGet effective_config "InsertTrailingCommas" = some "Wrapped" then
      safe_values.erase "true"
    else safe_values
  else safe_values

/-! ## The coordinate search engine (optimizer.py) -/

/-- A cost oracle as the optimizer sees it: evaluating a configuration
either yields its integer cost or raises ProcessRunError. -/
abbrev CostFun := Config → Except ProcessRunError Nat

/-- A total (never-failing) cost oracle, wrapped as a CostFun. -/
def totalCostFun (f : Config → Nat) : CostFun :=
  fun c => .ok (f c)

/-- optimizer.calc_values_costs: walk the safe values of the key; skip the
value equal to the key's current value in the baseline (no redundant
evaluation); evaluate every other value on the baseline with only that key
overridden; a ProcessRunError drops the value from the cost dict and prints
its stderr.  Returns the insertion-ordered cost dict together with the
printed diagnostics. -/
def calc_values_costs (cost_fun : CostFun) (baseline : Config) (key : String) :
    List String → List (String × Nat) × List String
  | [] => ([], [])
  | v :: vs =>
      let rest := calc_values_costs cost_fun baseline key vs
      if cfgGet baseline key = some v then rest
      else
        match cost_fun (cfgSet baseline key v) with
        | .ok c => ((v, c) :: rest.1, rest.2)
        | .error e => (rest.1, e.stderr :: rest.2)

/-- The fold inside Python min(items, key=cost): a later item replaces the
current best only when strictly smaller, so the first-listed minimum wins. -/
def minFold (best : String × Nat) : List (String × Nat) → String × Nat
  | [] => best
  | p :: t => minFold (if p.2 < best.2 then p else best) t

/-- Python min over the cost dict items keyed by cost; none models the
ValueError raised on an empty dict. -/
def minByVal : List (String × Nat) → Option (String × Nat)
  | [] => none
  | x :: xs => some (minFold x xs)

/-- The outcome of processing one key in the optimize_configuration loop. -/
inductive StepResult where
  | commit (val : String) (cost : Nat) (evaluated : List (String × Nat))
      (diags : List String)
  | noImprove (evaluated : List (String × Nat)) (diags : List String)
  | valueError (diags : List String)
deriving DecidableEq

/-- One coordinate step of optimize_configuration on the current key:
compute the candidate costs, take the Python min, and commit exactly when
the best cost strictly improves on the current best. -/
def optStep (cost_fun : CostFun) (sv : String → Config → List String)
    (cfg : Config) (current_cost : Nat) (key : String) : StepResult :=
  let r := calc_values_costs cost_fun cfg key (sv key cfg)
  match minByVal r.1 with
  | none => .valueError r.2
  | some (bv, bc) =>
      if bc < current_cost then .commit bv bc r.1 r.2
      else .noImprove r.1 r.2

/-- Trace record for one processed key of the optimizer loop. -/
structure OptStep where
  key : String
  evaluated : List (String × Nat)
  diags : List String
  costBefore : Nat
  commitTo : Option (String × Nat)
deriving DecidableEq

/-- Result of optimize_configuration.  ok carries the final working
configuration, the final best cost, the trace of processed keys and the
final visited set (insertion-ordered, most recent first); valueError models
the uncaught ValueError of min on an empty cost dict, procError the
uncaught ProcessRunError of the entry cost evaluation, and skipped the
early return on an empty tuneable set. -/
inductive OptOutcome where
  | ok (cfg : Config) (cost : Nat) (steps : List OptStep) (visited : List String)
  | valueError (cfg : Config) (steps : List OptStep)
  | procError (cfg : Config) (e : ProcessRunError)
  | skipped (cfg : Config)
deriving DecidableEq

/-- The cyclic scan of optimize_configuration: break when the current key
was already visited since the last improvement; otherwise run one
coordinate step, committing the best value when it strictly improves the
best cost (clearing the visited set), and mark the key visited.  The fuel
argument only bounds the recursion; none means it ran out. -/
def optimizeLoop (cost_fun : CostFun) (sv : String → Config → List String)
    (tuneable : List String) :
    Nat → Config → Nat → List String → List String → List OptStep →
      Option OptOutcome
  | 0, _, _, _, _, _ => none
  | fuel + 1, cfg, cost, visited, [], steps =>
      optimizeLoop cost_fun sv tuneable fuel cfg cost visited tuneable steps
  | fuel + 1, cfg, cost, visited, key :: rest, steps =>
      if visited.contains key then some (.ok cfg cost steps visited)
      else
        match optStep cost_fun sv cfg cost key with
        | .commit bv bc ev dg =>
            optimizeLoop cost_fun sv tuneable fuel (cfgSet cfg key bv) bc [key]
              rest (steps ++ [⟨key, ev, dg, cost, some (bv, bc)⟩])
        | .noImprove ev dg =>
            optimizeLoop cost_fun sv tuneable fuel cfg cost (key :: visited)
              rest (steps ++ [⟨key, ev, dg, cost, none⟩])
        | .valueError dg =>
            some (.valueError cfg (steps ++ [⟨key, [], dg, cost, none⟩]))

/-- optimizer.optimize_configuration: include_opts defaults to the catalog
keys, exclude_opts to the keys already present in the working
configuration; the tuneable key set is their ordered difference; an empty
set returns immediately, otherwise the baseline cost is evaluated and the
cyclic coordinate search runs. -/
def optimize_configuration (cost_fun : CostFun)
    (sv : String → Config → List String) (fuel : Nat) (rw_config : Config)
    (include_opts : Option (List String) := none)
    (exclude_opts : Option (List String) := none) : Option OptOutcome :=
  let incl := include_opts.getD allTuneableKeys
  let excl := exclude_opts.getD (cfgKeys rw_config)
  let tuneable_options := ordered_diff incl excl
  if tuneable_options.isEmpty then some (.skipped rw_config)
  else
    match cost_fun rw_config with
    | .error e => some (.procError rw_config e)
    | .ok c0 =>
        optimizeLoop cost_fun sv tuneable_options fuel rw_config c0 [] tuneable_options []

/-! ## The minimizer (optimizer.py and the legacy script) -/

/-- What happened to one key in the minimizer loop: the key was removed
(cost accepted), kept (cost rejected), already absent (KeyError caught,
continue), or its evaluation failed (ProcessRunError caught, continue). -/
inductive MinAction where
  | removed (newCost : Nat)
  | kept (newCost : Nat)
  | keyError
  | runError (stderrText : String)
deriving DecidableEq

/-- Trace record for one processed key of the minimizer loop. -/
structure MinStep where
  key : String
  costBefore : Nat
  action : MinAction
deriving DecidableEq

/-- Result of minimize_configuration, in the same shape as OptOutcome. -/
inductive MinOutcome where
  | ok (cfg : Config) (cost : Nat) (steps : List MinStep) (visited : List String)
  | procError (cfg : Config) (e : ProcessRunError)
  | skipped (cfg : Config)
deriving DecidableEq

/-- The cyclic scan of the packaged minimize_configuration: break when the
current key was already visited; a KeyError (key already deleted) or a
ProcessRunError continues without marking the key visited; otherwise accept
the deletion exactly when the cost without the key is less than or equal to
the current best cost, clearing the visited set; else mark visited. -/
def minimizeLoop (cost_fun : CostFun) (tuneable : List String) :
    Nat → Config → Nat → List String → List String → List MinStep →
      Option MinOutcome
  | 0, _, _, _, _, _ => none
  | fuel + 1, cfg, cost, visited, [], steps =>
      minimizeLoop cost_fun tuneable fuel cfg cost visited tuneable steps
  | fuel + 1, cfg, cost, visited, key :: rest, steps =>
      if visited.contains key then some (.ok cfg cost steps visited)
      else if ¬ cfgMem cfg key then
        minimizeLoop cost_fun tuneable fuel cfg cost visited rest
          (steps ++ [⟨key, cost, .keyError⟩])
      else
        match cost_fun (cfgDel cfg key) with
        | .error e =>
            minimizeLoop cost_fun tuneable fuel cfg cost visited rest
              (steps ++ [⟨key, cost, .runError e.stderr⟩])
        | .ok nc =>
            if nc ≤ cost then
              minimizeLoop cost_fun tuneable fuel (cfgDel cfg key) nc [key] rest
                (steps ++ [⟨key, cost, .removed nc⟩])
            else
              minimizeLoop cost_fun tuneable fuel cfg cost (key :: visited) rest
                (steps ++ [⟨key, cost, .kept nc⟩])

/-- optimizer.minimize_configuration (packaged version, acceptance on
less-than-or-equal): the tuneable keys are the working configuration keys
minus the frozen options, in configuration order. -/
def minimize_configuration (cost_fun : CostFun) (fuel : Nat)
    (rw_config : Config) (frozen_options : List String) : Option MinOutcome :=
  let tuneable_keys := ordered_diff (cfgKeys rw_config) frozen_options
  if tuneable_keys.isEmpty then some (.skipped rw_config)
  else
    match cost_fun rw_config with
    | .error e => some (.procError rw_config e)
    | .ok c0 => minimizeLoop cost_fun tuneable_keys fuel rw_config c0 [] tuneable_keys []

/-- The legacy script's minimizer loop (clang_format_discover.py): identical
to minimizeLoop except that a removal is accepted only when the new cost is
strictly smaller than the current best cost. -/
def legacyMinimizeLoop (cost_fun : CostFun) (tuneable : List String) :
    Nat → Config → Nat → List String → List String → List MinStep →
      Option MinOutcome
  | 0, _, _, _, _, _ => none
  | fuel + 1, cfg, cost, visited, [], steps =>
      legacyMinimizeLoop cost_fun tuneable fuel cfg cost visited tuneable steps
  | fuel + 1, cfg, cost, visited, key :: rest, steps =>
      if visited.contains key then some (.ok cfg cost steps visited)
      else if ¬ cfgMem cfg key then
        legacyMinimizeLoop cost_fun tuneable fuel cfg cost visited rest
          (steps ++ [⟨key, cost, .keyError⟩])
      else
        match cost_fun (cfgDel cfg key) with
        | .error e =>
            legacyMinimizeLoop cost_fun tuneable fuel cfg cost visited rest
              (steps ++ [⟨key, cost, .runError e.stderr⟩])
        | .ok nc =>
            if nc < cost then
              legacyMinimizeLoop cost_fun tuneable fuel (cfgDel cfg key) nc [key] rest
                (steps ++ [⟨key, cost, .removed nc⟩])
            else
              legacyMinimizeLoop cost_fun tuneable fuel cfg cost (key :: visited) rest
                (steps ++ [⟨key, cost, .kept nc⟩])

/-- The legacy script's minimize_configuration (strict acceptance). -/
def legacy_minimize_configuration (cost_fun : CostFun) (fuel : Nat)
    (rw_config : Config) (frozen_options : List String) : Option MinOutcome :=
  let tuneable_keys := ordered_diff (cfgKeys rw_config) frozen_options
  if tuneable_keys.isEmpty then some (.skipped rw_config)
  else
    match cost_fun rw_config with
    | .error e => some (.procError rw_config e)
    | .ok c0 => legacyMinimizeLoop cost_fun tuneable_keys fuel rw_config c0 [] tuneable_keys []


/-! ## Basic dictionary lemmas -/

theorem cfgGet_cfgSet_self (c : Config) (k v : String) :
    cfgGet (cfgSet c k v) k = some v := by
  induction c with
  | nil => simp [cfgSet, cfgGet]
  | cons p t ih =>
      obtain ⟨pk, pv⟩ := p
      by_cases h : pk = k
      · subst h
        simp [cfgSet, cfgGet]
      · simp [cfgSet, cfgGet, h, ih]

theorem cfgGet_cfgSet_ne (c : Config) (k v k2 : String) (h : k2 ≠ k) :
    cfgGet (cfgSet c k v) k2 = cfgGet c k2 := by
  induction c with
  | nil => simp [cfgSet, cfgGet, Ne.symm h]
  | cons p t ih =>
      obtain ⟨pk, pv⟩ := p
      by_cases hp : pk = k
      · subst hp
        simp [cfgSet, cfgGet, Ne.symm h]
      · simp only [cfgSet, if_neg hp]
        by_cases hq : pk = k2
        · simp [cfgGet, hq]
        · simp [cfgGet, hq, ih]

theorem cfgGet_cfgDel_ne (c : Config) (k k2 : String) (h : k2 ≠ k) :
    cfgGet (cfgDel c k) k2 = cfgGet c k2 := by
  induction c with
  | nil => simp [cfgDel]
  | cons p t ih =>
      obtain ⟨pk, pv⟩ := p
      by_cases hp : pk = k
      · subst hp
        simp [cfgDel, cfgGet, Ne.symm h]
      · simp only [cfgDel, if_neg hp]
        by_cases hq : pk = k2
        · simp [cfgGet, hq]
        · simp [cfgGet, hq, ih]

/-! ## The Python min fold: first-listed minimum -/

/-- The property the spec asks of the chosen candidate: it occurs in the
evaluated list, its cost is minimal, and every candidate listed before it
costs strictly more (ties broken in favour of the first-listed value). -/
def FirstMinimum (l : List (String × Nat)) (p : String × Nat) : Prop :=
  p ∈ l ∧ (∀ q ∈ l, p.2 ≤ q.2) ∧
    ∃ l1 l2, l = l1 ++ p :: l2 ∧ ∀ q ∈ l1, p.2 < q.2

theorem minFold_firstMin :
    ∀ (l : List (String × Nat)) (b : String × Nat),
      FirstMinimum (b :: l) (minFold b l) := by
  intro l
  induction l with
  | nil =>
      intro b
      refine ⟨List.mem_cons_self b [], ?_, [], [], rfl, ?_⟩
      · intro q hq
        rcases List.mem_cons.mp hq with h | h
        · subst h
          exact Nat.le_refl _
        · simp at h
      · intro q hq
        simp at hq
  | cons p t ih =>
      intro b
      by_cases hlt : p.2 < b.2
      · obtain ⟨hmem, hle, l1, l2, hdec, hstrict⟩ := ih p
        have heq : minFold b (p :: t) = minFold p t := by
          simp [minFold, hlt]
        rw [heq]
        refine ⟨List.mem_cons_of_mem b hmem, ?_, b :: l1, l2, by simp [hdec], ?_⟩
        · intro q hq
          rcases List.mem_cons.mp hq with h | h
          · subst h
            exact Nat.le_trans (hle p (List.mem_cons_self p t)) (Nat.le_of_lt hlt)
          · exact hle q h
        · intro q hq
          rcases List.mem_cons.mp hq with h | h
          · subst h
            exact Nat.lt_of_le_of_lt (hle p (List.mem_cons_self p t)) hlt
          · exact hstrict q h
      · obtain ⟨hmem, hle, l1, l2, hdec, hstrict⟩ := ih b
        have heq : minFold b (p :: t) = minFold b t := by
          simp [minFold, hlt]
        rw [heq]
        have hble : (minFold b t).2 ≤ b.2 := hle b (List.mem_cons_self b t)
        refine ⟨?_, ?_, ?_⟩
        · rcases List.mem_cons.mp hmem with h | h
          · rw [h]
            exact List.mem_cons_self b (p :: t)
          · exact List.mem_cons_of_mem b (List.mem_cons_of_mem p h)
        · intro q hq
          rcases List.mem_cons.mp hq with h | h
          · rw [h]
            exact hble
          · rcases List.mem_cons.mp h with h2 | h2
            · subst h2
              exact Nat.le_trans hble (Nat.le_of_not_lt hlt)
            · exact hle q (List.mem_cons_of_mem b h2)
        · cases l1 with
          | nil =>
              simp only [List.nil_append] at hdec
              injection hdec with hb ht2
              refine ⟨[], p :: t, ?_, by intro q hq; simp at hq⟩
              rw [List.nil_append, ← hb]
          | cons b2 l1t =>
              injection hdec with hb2 ht
              subst hb2
              have hbstrict : (minFold b t).2 < b.2 :=
                hstrict b (List.mem_cons_self b l1t)
              have hgoal : b :: p :: t = (b :: p :: l1t) ++ minFold b t :: l2 := by
                conv_lhs => rw [ht]
                simp
              refine ⟨b :: p :: l1t, l2, hgoal, ?_⟩
              intro q hq
              rcases List.mem_cons.mp hq with h | h
              · subst h
                exact hbstrict
              · rcases List.mem_cons.mp h with h2 | h2
                · subst h2
                  exact Nat.lt_of_lt_of_le hbstrict (Nat.le_of_not_lt hlt)
                · exact hstrict q (List.mem_cons_of_mem b h2)

theorem minByVal_firstMin (l : List (String × Nat)) (p : String × Nat)
    (h : minByVal l = some p) : FirstMinimum l p := by
  cases l with
  | nil => exact Option.noConfusion h
  | cons x xs =>
      have hp : minFold x xs = p := Option.some.inj h
      rw [← hp]
      exact minFold_firstMin xs x

/-! ## calc_values_costs over a total cost oracle -/

/-- What the spec says one coordinate step evaluates: every safe value of
the key except the one equal to the key's current value, in catalog order,
each paired with the cost of the configuration changed at that key only. -/
def evaluatedCandidates (cf : Config → Nat) (sv : String → Config → List String)
    (cfg : Config) (key : String) : List (String × Nat) :=
  ((sv key cfg).filter (fun v => decide (cfgGet cfg key ≠ some v))).map
    (fun v => (v, cf (cfgSet cfg key v)))

theorem calc_values_costs_total (cf : Config → Nat) (b : Config) (k : String) :
    ∀ vs : List String,
      calc_values_costs (totalCostFun cf) b k vs =
        ((vs.filter (fun v => decide (cfgGet b k ≠ some v))).map
          (fun v => (v, cf (cfgSet b k v))), []) := by
  intro vs
  induction vs with
  | nil => rfl
  | cons v t ih =>
      by_cases h : cfgGet b k = some v
      · simp [calc_values_costs, h, ih, List.filter]
      · simp [calc_values_costs, h, ih, List.filter, totalCostFun]

/-! ## Inversion lemmas for one optimizer step -/

theorem calc_values_costs_mem (cf : CostFun) (b : Config) (k : String) :
    ∀ (vs : List String) (v : String) (c : Nat),
      (v, c) ∈ (calc_values_costs cf b k vs).1 → cf (cfgSet b k v) = .ok c := by
  intro vs
  induction vs with
  | nil =>
      intro v c h
      simp [calc_values_costs] at h
  | cons v0 t ih =>
      intro v c h
      by_cases hskip : cfgGet b k = some v0
      · rw [calc_values_costs, if_pos hskip] at h
        exact ih v c h
      · rw [calc_values_costs, if_neg hskip] at h
        rcases hcf : cf (cfgSet b k v0) with e | c0
        · rw [hcf] at h
          exact ih v c h
        · rw [hcf] at h
          rcases List.mem_cons.mp h with h1 | h1
          · rw [Prod.mk.injEq] at h1
            rw [h1.1, h1.2]
            exact hcf
          · exact ih v c h1

theorem optStep_commit_inv (cf : CostFun) (sv : String → Config → List String)
    (cfg : Config) (cost : Nat) (key bv : String) (bc : Nat)
    (ev : List (String × Nat)) (dg : List String)
    (h : optStep cf sv cfg cost key = .commit bv bc ev dg) :
    calc_values_costs cf cfg key (sv key cfg) = (ev, dg) ∧
      minByVal ev = some (bv, bc) ∧ bc < cost := by
  rcases hm : minByVal (calc_values_costs cf cfg key (sv key cfg)).1 with _ | ⟨bv2, bc2⟩
  · simp only [optStep, hm] at h
    exact StepResult.noConfusion h
  · simp only [optStep, hm] at h
    by_cases hlt : bc2 < cost
    · rw [if_pos hlt] at h
      injection h with h1 h2 h3 h4
      subst h1
      subst h2
      subst h3
      subst h4
      exact ⟨rfl, hm, hlt⟩
    · rw [if_neg hlt] at h
      exact StepResult.noConfusion h

theorem optStep_noImprove_inv (cf : CostFun) (sv : String → Config → List String)
    (cfg : Config) (cost : Nat) (key : String)
    (ev : List (String × Nat)) (dg : List String)
    (h : optStep cf sv cfg cost key = .noImprove ev dg) :
    calc_values_costs cf cfg key (sv key cfg) = (ev, dg) ∧
      ∃ bv bc, minByVal ev = some (bv, bc) ∧ ¬ bc < cost := by
  rcases hm : minByVal (calc_values_costs cf cfg key (sv key cfg)).1 with _ | ⟨bv2, bc2⟩
  · simp only [optStep, hm] at h
    exact StepResult.noConfusion h
  · simp only [optStep, hm] at h
    by_cases hlt : bc2 < cost
    · rw [if_pos hlt] at h
      exact StepResult.noConfusion h
    · rw [if_neg hlt] at h
      injection h with h1 h2
      subst h1
      subst h2
      exact ⟨rfl, bv2, bc2, hm, hlt⟩

/-! ## C1: one coordinate-search step -/

/-- Concrete cost oracle used by witnesses: one option A, value 1 costs 5,
value 2 costs 7, any other configuration costs 10. -/
def exampleCost : Config → Nat := fun c =>
  match cfgGet c "A" with
  | some "1" => 5
  | some "2" => 7
  | _ => 10

/-- Concrete safe-value table used by witnesses: every key offers the
values 1 and 2. -/
def exampleSafeVals : String → Config → List String := fun _ _ => ["1", "2"]

/-- C1: in one coordinate-search step on key k the engine evaluates exactly
the safe values of k other than k's current value, in catalog order, on the
working configuration changed at k only (the current value is never
re-evaluated); the chosen pair is the first-listed minimum of the evaluated
costs; and the step commits its value exactly when that cost is strictly
below the current best cost. -/
theorem optStep_coordinate_search (cf : Config → Nat)
    (sv : String → Config → List String) (cfg : Config) (current_cost : Nat)
    (key bv : String) (bc : Nat)
    (hmin : minByVal (evaluatedCandidates cf sv cfg key) = some (bv, bc)) :
    calc_values_costs (totalCostFun cf) cfg key (sv key cfg) =
      (evaluatedCandidates cf sv cfg key, []) ∧
    FirstMinimum (evaluatedCandidates cf sv cfg key) (bv, bc) ∧
    optStep (totalCostFun cf) sv cfg current_cost key =
      (if bc < current_cost then
        StepResult.commit bv bc (evaluatedCandidates cf sv cfg key) []
      else
        StepResult.noImprove (evaluatedCandidates cf sv cfg key) []) := by
  have hcalc := calc_values_costs_total cf cfg key (sv key cfg)
  have hcalc2 : calc_values_costs (totalCostFun cf) cfg key (sv key cfg) =
      (evaluatedCandidates cf sv cfg key, []) := hcalc
  refine ⟨hcalc2, minByVal_firstMin _ _ hmin, ?_⟩
  rw [optStep, hcalc2]
  simp only [hmin]

/-- Witness for C1 on the concrete oracle: on the empty configuration the
step at key A evaluates values 1 and 2, finds the first minimum (1, 5), and
commits since 5 is strictly below the entry cost 10. -/
theorem optStep_coordinate_search_witness :
    minByVal (evaluatedCandidates exampleCost exampleSafeVals [] "A") =
      some ("1", 5) ∧
    (calc_values_costs (totalCostFun exampleCost) [] "A"
        (exampleSafeVals "A" []) =
      (evaluatedCandidates exampleCost exampleSafeVals [] "A", []) ∧
    FirstMinimum (evaluatedCandidates exampleCost exampleSafeVals [] "A")
      ("1", 5) ∧
    optStep (totalCostFun exampleCost) exampleSafeVals [] 10 "A" =
      (if 5 < 10 then
        StepResult.commit "1" 5
          (evaluatedCandidates exampleCost exampleSafeVals [] "A") []
      else
        StepResult.noImprove
          (evaluatedCandidates exampleCost exampleSafeVals [] "A") [])) :=
  ⟨by decide,
    optStep_coordinate_search exampleCost exampleSafeVals [] 10 "A" "1" 5
      (by decide)⟩

/-! ## Optimizer loop invariants -/

/-- Applying one optimizer trace record to a configuration: a commit writes
the committed value at its key, anything else leaves it unchanged. -/
def applyOptStep (c : Config) (s : OptStep) : Config :=
  match s.commitTo with
  | some (v, _) => cfgSet c s.key v
  | none => c

/-- The working configuration carried by each optimizer outcome. -/
def optOutcomeCfg : OptOutcome → Config
  | .ok c _ _ _ => c
  | .valueError c _ => c
  | .procError c _ => c
  | .skipped c => c

theorem optimizeLoop_ok_spec (cf : CostFun) (sv : String → Config → List String)
    (tuneable : List String) :
    ∀ (fuel : Nat) (cfg : Config) (cost : Nat) (visited rest : List String)
      (steps : List OptStep) (cfg2 : Config) (cost2 : Nat)
      (steps2 : List OptStep) (visited2 : List String),
      optimizeLoop cf sv tuneable fuel cfg cost visited rest steps =
        some (.ok cfg2 cost2 steps2 visited2) →
      ∃ tr, steps2 = steps ++ tr ∧
        cfg2 = tr.foldl applyOptStep cfg ∧
        cost2 ≤ cost ∧
        (∀ s ∈ tr, ∀ v nc, s.commitTo = some (v, nc) → nc < s.costBefore) ∧
        (cf cfg = .ok cost → cf cfg2 = .ok cost2) := by
  intro fuel
  induction fuel with
  | zero =>
      intro cfg cost visited rest steps cfg2 cost2 steps2 visited2 h
      exact Option.noConfusion h
  | succ fuel ih =>
      intro cfg cost visited rest steps cfg2 cost2 steps2 visited2 h
      cases rest with
      | nil =>
          exact ih cfg cost visited tuneable steps cfg2 cost2 steps2 visited2 h
      | cons key rest2 =>
          by_cases hv : visited.contains key = true
          · rw [optimizeLoop, if_pos hv] at h
            injection h with h2
            injection h2 with hcfg hcost hsteps hvis
            subst hcfg
            subst hcost
            subst hsteps
            refine ⟨[], by simp, rfl, Nat.le_refl _, ?_, fun hc => hc⟩
            intro s hs
            simp at hs
          · rcases hstep : optStep cf sv cfg cost key with
              ⟨bv, bc, ev, dg⟩ | ⟨ev, dg⟩ | dg
            · rw [optimizeLoop, if_neg hv, hstep] at h
              obtain ⟨hcalc, hmin, hlt⟩ :=
                optStep_commit_inv cf sv cfg cost key bv bc ev dg hstep
              have hmem : (bv, bc) ∈ ev := (minByVal_firstMin ev (bv, bc) hmin).1
              have hok : cf (cfgSet cfg key bv) = .ok bc := by
                apply calc_values_costs_mem cf cfg key (sv key cfg)
                rw [hcalc]
                exact hmem
              obtain ⟨tr, hsteps, hcfg, hcost, hcommits, hinv⟩ :=
                ih (cfgSet cfg key bv) bc [key] rest2
                  (steps ++ [⟨key, ev, dg, cost, some (bv, bc)⟩])
                  cfg2 cost2 steps2 visited2 h
              refine ⟨⟨key, ev, dg, cost, some (bv, bc)⟩ :: tr, ?_, ?_, ?_, ?_, ?_⟩
              · rw [hsteps]
                simp
              · rw [hcfg]
                rfl
              · exact Nat.le_trans hcost (Nat.le_of_lt hlt)
              · intro s hs v nc hcm
                rcases List.mem_cons.mp hs with h1 | h1
                · subst h1
                  simp only at hcm
                  injection hcm with h3
                  rw [Prod.mk.injEq] at h3
                  rw [← h3.2]
                  exact hlt
                · exact hcommits s h1 v nc hcm
              · intro _
                exact hinv hok
            · rw [optimizeLoop, if_neg hv, hstep] at h
              obtain ⟨tr, hsteps, hcfg, hcost, hcommits, hinv⟩ :=
                ih cfg cost (key :: visited) rest2
                  (steps ++ [⟨key, ev, dg, cost, none⟩])
                  cfg2 cost2 steps2 visited2 h
              refine ⟨⟨key, ev, dg, cost, none⟩ :: tr, ?_, ?_, hcost, ?_, hinv⟩
              · rw [hsteps]
                simp
              · rw [hcfg]
                rfl
              · intro s hs v nc hcm
                rcases List.mem_cons.mp hs with h1 | h1
                · subst h1
                  simp only at hcm
                  exact Option.noConfusion hcm
                · exact hcommits s h1 v nc hcm
            · rw [optimizeLoop, if_neg hv, hstep] at h
              injection h with h2
              exact OptOutcome.noConfusion h2

theorem optimizeLoop_frame (cf : CostFun) (sv : String → Config → List String)
    (tuneable : List String) :
    ∀ (fuel : Nat) (cfg : Config) (cost : Nat) (visited rest : List String)
      (steps : List OptStep) (r : OptOutcome),
      (∀ k ∈ rest, k ∈ tuneable) →
      optimizeLoop cf sv tuneable fuel cfg cost visited rest steps = some r →
      ∀ k, ¬ k ∈ tuneable → cfgGet (optOutcomeCfg r) k = cfgGet cfg k := by
  intro fuel
  induction fuel with
  | zero =>
      intro cfg cost visited rest steps r _ h
      exact Option.noConfusion h
  | succ fuel ih =>
      intro cfg cost visited rest steps r hrest h
      cases rest with
      | nil =>
          exact ih cfg cost visited tuneable steps r (fun k hk => hk) h
      | cons key rest2 =>
          have hkey : key ∈ tuneable := hrest key (List.mem_cons_self key rest2)
          have hrest2 : ∀ k ∈ rest2, k ∈ tuneable :=
            fun k hk => hrest k (List.mem_cons_of_mem key hk)
          by_cases hv : visited.contains key = true
          · rw [optimizeLoop, if_pos hv] at h
            injection h with h2
            rw [← h2]
            intro k _
            rfl
          · rcases hstep : optStep cf sv cfg cost key with
              ⟨bv, bc, ev, dg⟩ | ⟨ev, dg⟩ | dg
            · rw [optimizeLoop, if_neg hv, hstep] at h
              intro k hk
              have hne : k ≠ key := fun he => hk (he ▸ hkey)
              have := ih (cfgSet cfg key bv) bc [key] rest2
                (steps ++ [⟨key, ev, dg, cost, some (bv, bc)⟩]) r hrest2 h k hk
              rw [this, cfgGet_cfgSet_ne cfg key bv k hne]
            · rw [optimizeLoop, if_neg hv, hstep] at h
              exact ih cfg cost (key :: visited) rest2
                (steps ++ [⟨key, ev, dg, cost, none⟩]) r hrest2 h
            · rw [optimizeLoop, if_neg hv, hstep] at h
              injection h with h2
              rw [← h2]
              intro k _
              rfl

theorem not_mem_ordered_diff_of_mem_second (l1 l2 : List String) (k : String)
    (h : k ∈ l2) : ¬ k ∈ ordered_diff l1 l2 := by
  intro hmem
  rw [ordered_diff] at hmem
  have := (List.mem_filter.mp hmem).2
  simp at this
  exact this h

/-! ## C3: monotone improvement and strict-improvement-only mutation -/

/-- C3: over any total cost oracle, when optimize_configuration returns
normally the final cost is the oracle's cost of the final working
configuration and is at most the oracle's cost of the entry configuration;
the final configuration is the entry configuration transformed exactly by
the trace's commits; and every commit in the trace was strictly cheaper
than the best cost at its time. -/
theorem optimize_configuration_monotone (cf : Config → Nat)
    (sv : String → Config → List String) (fuel : Nat) (rw_config : Config)
    (include_opts exclude_opts : Option (List String)) (cfg2 : Config)
    (cost2 : Nat) (steps2 : List OptStep) (visited2 : List String)
    (h : optimize_configuration (totalCostFun cf) sv fuel rw_config
      include_opts exclude_opts = some (.ok cfg2 cost2 steps2 visited2)) :
    cf cfg2 = cost2 ∧
    cost2 ≤ cf rw_config ∧
    cfg2 = steps2.foldl applyOptStep rw_config ∧
    (∀ s ∈ steps2, ∀ v nc, s.commitTo = some (v, nc) → nc < s.costBefore) := by
  rw [optimize_configuration] at h
  by_cases hemp : (ordered_diff (include_opts.getD allTuneableKeys)
      (exclude_opts.getD (cfgKeys rw_config))).isEmpty = true
  · rw [if_pos hemp] at h
    injection h with h2
    exact OptOutcome.noConfusion h2
  · rw [if_neg hemp] at h
    have hred : totalCostFun cf rw_config = .ok (cf rw_config) := rfl
    rw [hred] at h
    obtain ⟨tr, hsteps, hcfg, hcost, hcommits, hinv⟩ :=
      optimizeLoop_ok_spec (totalCostFun cf) sv _ fuel rw_config
        (cf rw_config) [] _ [] cfg2 cost2 steps2 visited2 h
    rw [List.nil_append] at hsteps
    subst hsteps
    have hok : totalCostFun cf cfg2 = .ok cost2 := hinv rfl
    have hcf : cf cfg2 = cost2 := by
      injection hok
    exact ⟨hcf, hcost, hcfg, hcommits⟩

/-- Witness for C3: a concrete one-key search that commits A to 1, lowering
the cost from 10 to 5. -/
theorem optimize_configuration_monotone_witness :
    exampleCost [("A", "1")] = 5 ∧
    5 ≤ exampleCost [] ∧
    [("A", "1")] =
      List.foldl applyOptStep []
        [⟨"A", [("1", 5), ("2", 7)], [], 10, some ("1", 5)⟩] ∧
    (∀ s ∈ ([⟨"A", [("1", 5), ("2", 7)], [], 10, some ("1", 5)⟩] :
        List OptStep), ∀ v nc, s.commitTo = some (v, nc) → nc < s.costBefore) :=
  optimize_configuration_monotone exampleCost exampleSafeVals 10 []
    (some ["A"]) (some []) [("A", "1")] 5
    [⟨"A", [("1", 5), ("2", 7)], [], 10, some ("1", 5)⟩] ["A"] (by decide)

/-! ## C10: the optimizer never touches keys outside the tuneable set -/

/-- C10: optimize_configuration never adds, deletes or modifies a
configuration key outside ordered_diff(include_opts, exclude_opts) as
computed at entry (with the documented defaults); in particular with the
default exclude_opts every key already present in the working configuration
still has its original value in the outcome. -/
theorem optimize_configuration_frame (cf : CostFun)
    (sv : String → Config → List String) (fuel : Nat) (rw_config : Config)
    (include_opts exclude_opts : Option (List String)) (r : OptOutcome)
    (h : optimize_configuration cf sv fuel rw_config include_opts
      exclude_opts = some r) :
    (∀ k, ¬ k ∈ ordered_diff (include_opts.getD allTuneableKeys)
        (exclude_opts.getD (cfgKeys rw_config)) →
      cfgGet (optOutcomeCfg r) k = cfgGet rw_config k) ∧
    (exclude_opts = none →
      ∀ k ∈ cfgKeys rw_config, cfgGet (optOutcomeCfg r) k = cfgGet rw_config k) := by
  rw [optimize_configuration] at h
  have hmain : ∀ k, ¬ k ∈ ordered_diff (include_opts.getD allTuneableKeys)
      (exclude_opts.getD (cfgKeys rw_config)) →
      cfgGet (optOutcomeCfg r) k = cfgGet rw_config k := by
    by_cases hemp : (ordered_diff (include_opts.getD allTuneableKeys)
        (exclude_opts.getD (cfgKeys rw_config))).isEmpty = true
    · rw [if_pos hemp] at h
      injection h with h2
      rw [← h2]
      intro k _
      rfl
    · rw [if_neg hemp] at h
      rcases hcf : cf rw_config with e | c0
      · rw [hcf] at h
        injection h with h2
        rw [← h2]
        intro k _
        rfl
      · rw [hcf] at h
        exact optimizeLoop_frame cf sv _ fuel rw_config c0 [] _ [] r
          (fun k hk => hk) h
  refine ⟨hmain, ?_⟩
  intro hexcl k hk
  subst hexcl
  exact hmain k (not_mem_ordered_diff_of_mem_second _ _ k hk)

/-- Witness for C10: a concrete run in which the pre-existing key Z (frozen
by the explicit exclude list) keeps its value 9. -/
theorem optimize_configuration_frame_witness :
    (∀ k, ¬ k ∈ ordered_diff ((some ["A"] : Option (List String)).getD
        allTuneableKeys) ((some ([] : List String)).getD (cfgKeys [("Z", "9")])) →
      cfgGet (optOutcomeCfg (.ok [("Z", "9"), ("A", "1")] 5
        [⟨"A", [("1", 5), ("2", 7)], [], 10, some ("1", 5)⟩] ["A"])) k =
        cfgGet [("Z", "9")] k) ∧
    ((some ([] : List String)) = none →
      ∀ k ∈ cfgKeys [("Z", "9")],
        cfgGet (optOutcomeCfg (.ok [("Z", "9"), ("A", "1")] 5
          [⟨"A", [("1", 5), ("2", 7)], [], 10, some ("1", 5)⟩] ["A"])) k =
          cfgGet [("Z", "9")] k) :=
  optimize_configuration_frame (totalCostFun exampleCost) exampleSafeVals 10
    [("Z", "9")] (some ["A"]) (some [])
    (.ok [("Z", "9"), ("A", "1")] 5
      [⟨"A", [("1", 5), ("2", 7)], [], 10, some ("1", 5)⟩] ["A"]) (by decide)

/-! ## C4: convergence of the cyclic scan -/

theorem snoc_eq_append_cases (X l t : List String) (a : String)
    (h : X ++ [a] = l ++ t) :
    (t = [] ∧ l = X ++ [a]) ∨ (∃ t2, X = l ++ t2) := by
  rcases List.eq_nil_or_concat t with ht | ⟨t2, b, ht⟩
  · subst ht
    rw [List.append_nil] at h
    exact Or.inl ⟨rfl, h.symm⟩
  · rw [List.concat_eq_append] at ht
    subst ht
    rw [← List.append_assoc] at h
    obtain ⟨h1, _⟩ := List.append_inj' h (by simp)
    exact Or.inr ⟨t2, h1⟩

theorem optimizeLoop_break_all_visited (cf : CostFun)
    (sv : String → Config → List String) (tuneable : List String)
    (hnd : tuneable.Nodup) :
    ∀ (fuel : Nat) (cfg : Config) (cost : Nat) (visited rest : List String)
      (steps : List OptStep) (cfg2 : Config) (cost2 : Nat)
      (steps2 : List OptStep) (visited2 A t : List String),
      tuneable = A ++ rest →
      A.reverse ++ rest.reverse = visited ++ t →
      optimizeLoop cf sv tuneable fuel cfg cost visited rest steps =
        some (.ok cfg2 cost2 steps2 visited2) →
      ∀ k ∈ tuneable, k ∈ visited2 := by
  intro fuel
  induction fuel with
  | zero =>
      intro cfg cost visited rest steps cfg2 cost2 steps2 visited2 A t _ _ h
      exact Option.noConfusion h
  | succ fuel ih =>
      intro cfg cost visited rest steps cfg2 cost2 steps2 visited2 A t hA hP h
      cases rest with
      | nil =>
          rw [List.append_nil] at hA
          rw [List.reverse_nil, List.append_nil] at hP
          refine ih cfg cost visited tuneable steps cfg2 cost2 steps2 visited2
            [] t rfl ?_ h
          rw [List.reverse_nil, List.nil_append, hA]
          exact hP
      | cons key rest2 =>
          have hXP : (A.reverse ++ rest2.reverse) ++ [key] = visited ++ t := by
            rw [List.append_assoc]
            rw [← List.reverse_cons]
            exact hP
          have hnd2 : (A ++ key :: rest2).Nodup := by
            rw [← hA]
            exact hnd
          obtain ⟨hndA, hndc, hdisj⟩ := List.nodup_append.mp hnd2
          have hkeyA : ¬ key ∈ A := fun hk =>
            hdisj hk (List.mem_cons_self key rest2)
          have hkeyr : ¬ key ∈ rest2 := (List.nodup_cons.mp hndc).1
          by_cases hv : visited.contains key = true
          · rw [optimizeLoop, if_pos hv] at h
            injection h with h2
            injection h2 with hcfg hcost hsteps hvis
            subst hvis
            have hkmem : key ∈ visited := by
              simpa using hv
            rcases snoc_eq_append_cases _ _ _ _ hXP with ⟨_, hvise⟩ | ⟨t2, hX⟩
            · intro k hk
              rw [hA] at hk
              rw [hvise]
              rcases List.mem_append.mp hk with h1 | h1
              · exact List.mem_append.mpr (Or.inl (List.mem_append.mpr
                  (Or.inl (List.mem_reverse.mpr h1))))
              · rcases List.mem_cons.mp h1 with h2 | h2
                · subst h2
                  exact List.mem_append.mpr (Or.inr (List.mem_singleton.mpr rfl))
                · exact List.mem_append.mpr (Or.inl (List.mem_append.mpr
                    (Or.inr (List.mem_reverse.mpr h2))))
            · exfalso
              have : key ∈ A.reverse ++ rest2.reverse := by
                rw [hX]
                exact List.mem_append.mpr (Or.inl hkmem)
              rcases List.mem_append.mp this with h1 | h1
              · exact hkeyA (List.mem_reverse.mp h1)
              · exact hkeyr (List.mem_reverse.mp h1)
          · have hnmem : ¬ key ∈ visited := by
              intro hk
              apply hv
              simpa using hk
            rcases hstep : optStep cf sv cfg cost key with
              ⟨bv, bc, ev, dg⟩ | ⟨ev, dg⟩ | dg
            · rw [optimizeLoop, if_neg hv, hstep] at h
              refine ih (cfgSet cfg key bv) bc [key] rest2
                (steps ++ [⟨key, ev, dg, cost, some (bv, bc)⟩])
                cfg2 cost2 steps2 visited2 (A ++ [key])
                (A.reverse ++ rest2.reverse) ?_ ?_ h
              · rw [hA, List.append_assoc]
                rfl
              · rw [List.reverse_append, List.reverse_singleton]
                simp
            · rw [optimizeLoop, if_neg hv, hstep] at h
              rcases snoc_eq_append_cases _ _ _ _ hXP with ⟨_, hvise⟩ | ⟨t2, hX⟩
              · exfalso
                apply hnmem
                rw [hvise]
                exact List.mem_append.mpr (Or.inr (List.mem_singleton.mpr rfl))
              · refine ih cfg cost (key :: visited) rest2
                  (steps ++ [⟨key, ev, dg, cost, none⟩])
                  cfg2 cost2 steps2 visited2 (A ++ [key]) t2 ?_ ?_ h
                · rw [hA, List.append_assoc]
                  rfl
                · simp [hX]
            · rw [optimizeLoop, if_neg hv, hstep] at h
              injection h with h2
              exact OptOutcome.noConfusion h2

/-- C4 (amended): the cyclic scan stops exactly upon reaching a key already
in the visited set; a commit resets the visited set to the committing key
alone (not to empty), so the committed key is marked visited immediately;
and at convergence every key of the (duplicate-free) tuneable set is in the
visited set. -/
theorem optimizeLoop_convergence_semantics (cf : CostFun)
    (sv : String → Config → List String) (tuneable : List String) :
    (∀ (fuel : Nat) (cfg : Config) (cost : Nat) (visited : List String)
        (key : String) (rest : List String) (steps : List OptStep),
      visited.contains key = true →
      optimizeLoop cf sv tuneable (fuel + 1) cfg cost visited (key :: rest)
        steps = some (.ok cfg cost steps visited)) ∧
    (∀ (fuel : Nat) (cfg : Config) (cost : Nat) (visited : List String)
        (key : String) (rest : List String) (steps : List OptStep)
        (bv : String) (bc : Nat) (ev : List (String × Nat)) (dg : List String),
      visited.contains key = false →
      optStep cf sv cfg cost key = .commit bv bc ev dg →
      optimizeLoop cf sv tuneable (fuel + 1) cfg cost visited (key :: rest)
          steps =
        optimizeLoop cf sv tuneable fuel (cfgSet cfg key bv) bc [key] rest
          (steps ++ [⟨key, ev, dg, cost, some (bv, bc)⟩])) ∧
    (tuneable.Nodup →
      ∀ (fuel : Nat) (cfg : Config) (cost : Nat) (cfg2 : Config) (cost2 : Nat)
        (steps2 : List OptStep) (visited2 : List String),
        optimizeLoop cf sv tuneable fuel cfg cost [] tuneable [] =
          some (.ok cfg2 cost2 steps2 visited2) →
        ∀ k ∈ tuneable, k ∈ visited2) := by
  refine ⟨?_, ?_, ?_⟩
  · intro fuel cfg cost visited key rest steps hv
    rw [optimizeLoop, if_pos hv]
  · intro fuel cfg cost visited key rest steps bv bc ev dg hv hstep
    rw [optimizeLoop, if_neg (by rw [hv]; exact Bool.false_ne_true), hstep]
  · intro hnd fuel cfg cost cfg2 cost2 steps2 visited2 h
    exact optimizeLoop_break_all_visited cf sv tuneable hnd fuel cfg cost []
      tuneable [] cfg2 cost2 steps2 visited2 [] tuneable.reverse rfl
      (by simp) h

/-- Witness for C4 (amended) on the concrete one-key search: the loop stops
at the already-visited key A; the commit of A=1 proceeds with the visited
set reset to A alone; and the converged run has every tuneable key in its
final visited set. -/
theorem optimizeLoop_convergence_semantics_witness :
    (optimizeLoop (totalCostFun exampleCost) exampleSafeVals ["A"] 3 []
        10 ["A"] ["A"] [] = some (.ok [] 10 [] ["A"])) ∧
    (optimizeLoop (totalCostFun exampleCost) exampleSafeVals ["A"] 3 [] 10 []
        ["A"] [] =
      optimizeLoop (totalCostFun exampleCost) exampleSafeVals ["A"] 2
        (cfgSet [] "A" "1") 5 ["A"] []
        ([] ++ [⟨"A", [("1", 5), ("2", 7)], [], 10, some ("1", 5)⟩])) ∧
    (∀ k ∈ (["A"] : List String), k ∈ (["A"] : List String)) := by
  have h := optimizeLoop_convergence_semantics (totalCostFun exampleCost)
    exampleSafeVals ["A"]
  refine ⟨h.1 2 [] 10 ["A"] "A" [] [] (by decide), ?_, ?_⟩
  · exact h.2.1 2 [] 10 [] "A" [] [] "1" 5 [("1", 5), ("2", 7)] []
      (by decide) (by decide)
  · exact h.2.2 (by decide) 4 [] 10 [("A", "1")] 5
      [⟨"A", [("1", 5), ("2", 7)], [], 10, some ("1", 5)⟩] ["A"] (by decide)


/-- C4 counterexample: with the single tuneable key A, a strictly improving
value 1, and entry cost 10, the search commits A=1 and converges at once:
the trace is the single committing step, so after the commit to A there is
no further evaluation of A before convergence — the next cycle does not
start fresh including A, because the commit marks A itself visited. -/
theorem optimize_commit_key_not_reevaluated :
    optimize_configuration (totalCostFun exampleCost) exampleSafeVals 10 []
      (some ["A"]) (some []) =
      some (.ok [("A", "1")] 5
        [⟨"A", [("1", 5), ("2", 7)], [], 10, some ("1", 5)⟩] ["A"]) ∧
    (⟨"A", [("1", 5), ("2", 7)], [], 10,
      some ("1", 5)⟩ : OptStep).commitTo.isSome = true := by
  exact ⟨by decide, by decide⟩

/-! ## C2: minimizer safety -/

theorem minimizeLoop_ok_spec (cf : CostFun) (tuneable : List String) :
    ∀ (fuel : Nat) (cfg : Config) (cost : Nat) (visited rest : List String)
      (steps : List MinStep) (cfg2 : Config) (cost2 : Nat)
      (steps2 : List MinStep) (visited2 : List String),
      (∀ k ∈ rest, k ∈ tuneable) →
      minimizeLoop cf tuneable fuel cfg cost visited rest steps =
        some (.ok cfg2 cost2 steps2 visited2) →
      cost2 ≤ cost ∧
      (cf cfg = .ok cost → cf cfg2 = .ok cost2) ∧
      (∃ tr, steps2 = steps ++ tr ∧
        ∀ s ∈ tr, (∀ nc, s.action = .removed nc → nc ≤ s.costBefore) ∧
          (∀ nc, s.action = .kept nc → s.costBefore < nc)) ∧
      (∀ k, ¬ k ∈ tuneable → cfgGet cfg2 k = cfgGet cfg k) := by
  intro fuel
  induction fuel with
  | zero =>
      intro cfg cost visited rest steps cfg2 cost2 steps2 visited2 _ h
      exact Option.noConfusion h
  | succ fuel ih =>
      intro cfg cost visited rest steps cfg2 cost2 steps2 visited2 hrest h
      cases rest with
      | nil =>
          exact ih cfg cost visited tuneable steps cfg2 cost2 steps2 visited2
            (fun k hk => hk) h
      | cons key rest2 =>
          have hkey : key ∈ tuneable := hrest key (List.mem_cons_self key rest2)
          have hrest2 : ∀ k ∈ rest2, k ∈ tuneable :=
            fun k hk => hrest k (List.mem_cons_of_mem key hk)
          by_cases hv : visited.contains key = true
          · rw [minimizeLoop, if_pos hv] at h
            injection h with h2
            injection h2 with hcfg hcost hsteps hvis
            subst hcfg
            subst hcost
            subst hsteps
            refine ⟨Nat.le_refl _, fun hc => hc, ⟨[], by simp, ?_⟩, fun k _ => rfl⟩
            intro s hs
            simp at hs
          · by_cases hm : cfgMem cfg key = true
            · have hcnd : ¬ (¬ cfgMem cfg key = true) := fun hc => hc hm
              rcases hcf : cf (cfgDel cfg key) with e | nc
              · rw [minimizeLoop, if_neg hv, if_neg hcnd, hcf] at h
                obtain ⟨hcost, hinv, ⟨tr, hsteps, htr⟩, hframe⟩ :=
                  ih cfg cost visited rest2
                    (steps ++ [⟨key, cost, .runError e.stderr⟩])
                    cfg2 cost2 steps2 visited2 hrest2 h
                refine ⟨hcost, hinv,
                  ⟨⟨key, cost, .runError e.stderr⟩ :: tr, ?_, ?_⟩, hframe⟩
                · rw [hsteps]
                  simp
                · intro s hs
                  rcases List.mem_cons.mp hs with h1 | h1
                  · subst h1
                    constructor
                    · intro nc2 ha
                      simp only at ha
                      exact MinAction.noConfusion ha
                    · intro nc2 ha
                      simp only at ha
                      exact MinAction.noConfusion ha
                  · exact htr s h1
              · rw [minimizeLoop, if_neg hv, if_neg hcnd, hcf] at h
                dsimp only at h
                by_cases hle : nc ≤ cost
                · rw [if_pos hle] at h
                  obtain ⟨hcost, hinv, ⟨tr, hsteps, htr⟩, hframe⟩ :=
                    ih (cfgDel cfg key) nc [key] rest2
                      (steps ++ [⟨key, cost, .removed nc⟩])
                      cfg2 cost2 steps2 visited2 hrest2 h
                  refine ⟨Nat.le_trans hcost hle, fun _ => hinv hcf,
                    ⟨⟨key, cost, .removed nc⟩ :: tr, ?_, ?_⟩, ?_⟩
                  · rw [hsteps]
                    simp
                  · intro s hs
                    rcases List.mem_cons.mp hs with h1 | h1
                    · subst h1
                      constructor
                      · intro nc2 ha
                        simp only at ha
                        injection ha with ha2
                        rw [← ha2]
                        exact hle
                      · intro nc2 ha
                        simp only at ha
                        exact MinAction.noConfusion ha
                    · exact htr s h1
                  · intro k hk
                    have hne : k ≠ key := fun he => hk (he ▸ hkey)
                    rw [hframe k hk, cfgGet_cfgDel_ne cfg key k hne]
                · rw [if_neg hle] at h
                  obtain ⟨hcost, hinv, ⟨tr, hsteps, htr⟩, hframe⟩ :=
                    ih cfg cost (key :: visited) rest2
                      (steps ++ [⟨key, cost, .kept nc⟩])
                      cfg2 cost2 steps2 visited2 hrest2 h
                  refine ⟨hcost, hinv, ⟨⟨key, cost, .kept nc⟩ :: tr, ?_, ?_⟩,
                    hframe⟩
                  · rw [hsteps]
                    simp
                  · intro s hs
                    rcases List.mem_cons.mp hs with h1 | h1
                    · subst h1
                      constructor
                      · intro nc2 ha
                        simp only at ha
                        exact MinAction.noConfusion ha
                      · intro nc2 ha
                        simp only at ha
                        injection ha with ha2
                        rw [← ha2]
                        exact Nat.lt_of_not_le hle
                    · exact htr s h1
            · have hcnd : ¬ cfgMem cfg key = true := fun hc => hm hc
              rw [minimizeLoop, if_neg hv, if_pos hcnd] at h
              obtain ⟨hcost, hinv, ⟨tr, hsteps, htr⟩, hframe⟩ :=
                ih cfg cost visited rest2
                  (steps ++ [⟨key, cost, .keyError⟩])
                  cfg2 cost2 steps2 visited2 hrest2 h
              refine ⟨hcost, hinv,
                ⟨⟨key, cost, .keyError⟩ :: tr, ?_, ?_⟩, hframe⟩
              · rw [hsteps]
                simp
              · intro s hs
                rcases List.mem_cons.mp hs with h1 | h1
                · subst h1
                  constructor
                  · intro nc2 ha
                    simp only at ha
                    exact MinAction.noConfusion ha
                  · intro nc2 ha
                    simp only at ha
                    exact MinAction.noConfusion ha
                · exact htr s h1

/-- C2 (amended): the packaged minimize_configuration never changes a
frozen key (so never removes one), never increases the cost (the final
cost is the oracle cost of the final configuration and is at most the
entry cost), and accepts a deletion exactly when the cost without the key
is less than or equal to the current best cost: every removal in the trace
was cost-non-increasing and every kept key strictly increased the cost. -/
theorem minimize_configuration_safety (cf : CostFun) (fuel : Nat)
    (rw_config : Config) (frozen_options : List String) (cfg2 : Config)
    (cost2 : Nat) (steps2 : List MinStep) (visited2 : List String)
    (h : minimize_configuration cf fuel rw_config frozen_options =
      some (.ok cfg2 cost2 steps2 visited2)) :
    (∀ k ∈ frozen_options, cfgGet cfg2 k = cfgGet rw_config k) ∧
    (∀ c0, cf rw_config = .ok c0 → cost2 ≤ c0 ∧ cf cfg2 = .ok cost2) ∧
    (∀ s ∈ steps2, (∀ nc, s.action = .removed nc → nc ≤ s.costBefore) ∧
      (∀ nc, s.action = .kept nc → s.costBefore < nc)) := by
  rw [minimize_configuration] at h
  by_cases hemp : (ordered_diff (cfgKeys rw_config) frozen_options).isEmpty = true
  · rw [if_pos hemp] at h
    injection h with h2
    exact MinOutcome.noConfusion h2
  · rw [if_neg hemp] at h
    rcases hcf : cf rw_config with e | c0
    · rw [hcf] at h
      injection h with h2
      exact MinOutcome.noConfusion h2
    · rw [hcf] at h
      obtain ⟨hcost, hinv, ⟨tr, hsteps, htr⟩, hframe⟩ :=
        minimizeLoop_ok_spec cf _ fuel rw_config c0 [] _ [] cfg2 cost2
          steps2 visited2 (fun k hk => hk) h
      rw [List.nil_append] at hsteps
      subst hsteps
      refine ⟨?_, ?_, htr⟩
      · intro k hk
        exact hframe k (not_mem_ordered_diff_of_mem_second _ _ k hk)
      · intro c1 hc1
        injection hc1 with hc2
        subst hc2
        exact ⟨hcost, hinv hcf⟩

/-- Witness for C2 (amended): with working configuration A=1, B=2, frozen
set containing A, and the constant cost oracle 3, the packaged minimizer
removes B (a cost-equal removal) and leaves the frozen A untouched. -/
theorem minimize_configuration_safety_witness :
    (∀ k ∈ (["A"] : List String),
      cfgGet [("A", "1")] k = cfgGet [("A", "1"), ("B", "2")] k) ∧
    (∀ c0, totalCostFun (fun _ => 3) [("A", "1"), ("B", "2")] = .ok c0 →
      3 ≤ c0 ∧ totalCostFun (fun _ => 3) [("A", "1")] = .ok 3) ∧
    (∀ s ∈ ([⟨"B", 3, .removed 3⟩] : List MinStep),
      (∀ nc, s.action = .removed nc → nc ≤ s.costBefore) ∧
      (∀ nc, s.action = .kept nc → s.costBefore < nc)) :=
  minimize_configuration_safety (totalCostFun (fun _ => 3)) 10
    [("A", "1"), ("B", "2")] ["A"] [("A", "1")] 3 [⟨"B", 3, .removed 3⟩]
    ["B"] (by decide)

/-- C2 counterexample: the legacy script's minimize_configuration accepts a
removal only on a strict cost decrease, so a cost-equal removal is kept:
with configuration A=1, B=2, frozen A, constant cost 3, the legacy variant
keeps B while the packaged variant removes it. -/
theorem legacy_minimize_rejects_cost_equal_removal :
    legacy_minimize_configuration (totalCostFun (fun _ => 3)) 10
      [("A", "1"), ("B", "2")] ["A"] =
      some (.ok [("A", "1"), ("B", "2")] 3 [⟨"B", 3, .kept 3⟩] ["B"]) ∧
    minimize_configuration (totalCostFun (fun _ => 3)) 10
      [("A", "1"), ("B", "2")] ["A"] =
      some (.ok [("A", "1")] 3 [⟨"B", 3, .removed 3⟩] ["B"]) :=
  ⟨by decide, by decide⟩

/-! ## C7: tool-invocation errors and per-candidate recovery -/

/-- Concrete fallible cost oracle used by witnesses: value 1 of key A makes
the formatter exit with status 2 and stderr text, value 2 succeeds. -/
def exampleFailingCost : CostFun := fun c =>
  match cfgGet c "A" with
  | some "1" => .error ⟨2, "bad value"⟩
  | some "2" => .ok 7
  | _ => .ok 10

/-- Whether evaluating one candidate value succeeds under the oracle. -/
def candidateOk (cf : CostFun) (b : Config) (k v : String) : Bool :=
  match cf (cfgSet b k v) with
  | .ok _ => true
  | .error _ => false

/-- C7: capture_process_output fails exactly on a non-zero exit status,
with a ProcessRunError carrying that status and the captured stderr text;
and in calc_values_costs every candidate value whose evaluation fails is
dropped from the cost dict for that key in that cycle, its stderr is
surfaced as a diagnostic, and the resulting costs are exactly those of the
remaining (non-failing) candidate values. -/
theorem tool_invocation_error_recovery :
    (∀ p : ProcOutcome,
      (p.returncode ≠ 0 →
        capture_process_output p = .error ⟨p.returncode, p.stderr⟩) ∧
      (p.returncode = 0 → capture_process_output p = .ok p.stdout)) ∧
    (∀ (cf : CostFun) (b : Config) (k : String) (vs : List String),
      (calc_values_costs cf b k vs).1 =
        (calc_values_costs cf b k (vs.filter (candidateOk cf b k))).1 ∧
      (calc_values_costs cf b k vs).2 =
        vs.filterMap (fun v =>
          if cfgGet b k = some v then none
          else
            match cf (cfgSet b k v) with
            | .ok _ => none
            | .error e => some e.stderr)) := by
  constructor
  · intro p
    constructor
    · intro hnz
      rw [capture_process_output, if_neg hnz]
    · intro hz
      rw [capture_process_output, if_pos hz]
  · intro cf b k vs
    induction vs with
    | nil => exact ⟨rfl, rfl⟩
    | cons v t ih =>
        by_cases hskip : cfgGet b k = some v
        · rcases hcf : cf (cfgSet b k v) with e | c
          · have hok : candidateOk cf b k v = false := by
              rw [candidateOk, hcf]
            refine ⟨?_, ?_⟩
            · simp only [calc_values_costs, if_pos hskip, List.filter_cons,
                hok, Bool.false_eq_true, if_false]
              exact ih.1
            · rw [List.filterMap_cons_none (by rw [if_pos hskip])]
              simp only [calc_values_costs, if_pos hskip]
              exact ih.2
          · have hok : candidateOk cf b k v = true := by
              rw [candidateOk, hcf]
            refine ⟨?_, ?_⟩
            · simp only [calc_values_costs, if_pos hskip, List.filter_cons,
                hok, if_true]
              exact ih.1
            · rw [List.filterMap_cons_none (by rw [if_pos hskip])]
              simp only [calc_values_costs, if_pos hskip]
              exact ih.2
        · rcases hcf : cf (cfgSet b k v) with e | c
          · have hok : candidateOk cf b k v = false := by
              rw [candidateOk, hcf]
            refine ⟨?_, ?_⟩
            · simp only [calc_values_costs, if_neg hskip, hcf,
                List.filter_cons, hok, Bool.false_eq_true, if_false]
              exact ih.1
            · rw [List.filterMap_cons_some (by rw [if_neg hskip, hcf])]
              simp only [calc_values_costs, if_neg hskip, hcf]
              rw [ih.2]
          · have hok : candidateOk cf b k v = true := by
              rw [candidateOk, hcf]
            refine ⟨?_, ?_⟩
            · simp only [calc_values_costs, if_neg hskip, hcf,
                List.filter_cons, hok, if_true]
              exact congrArg (fun l => (v, c) :: l) ih.1
            · rw [List.filterMap_cons_none (by rw [if_neg hskip, hcf])]
              simp only [calc_values_costs, if_neg hskip, hcf]
              exact ih.2

/-- Witness for C7: a failing invocation with exit status 2 raises
ProcessRunError(2, stderr); a clean one returns its stdout; and for the
concrete oracle where candidate 1 fails and candidate 2 succeeds, the cost
dict keeps exactly candidate 2 while the diagnostic list carries the
failing candidate's stderr. -/
theorem tool_invocation_error_recovery_witness :
    (capture_process_output ⟨2, "xml", "boom"⟩ = .error ⟨2, "boom"⟩) ∧
    (capture_process_output ⟨0, "xml", ""⟩ = .ok "xml") ∧
    ((calc_values_costs exampleFailingCost [] "A" ["1", "2"]).1 =
      (calc_values_costs exampleFailingCost [] "A"
        (["1", "2"].filter (candidateOk exampleFailingCost [] "A"))).1) ∧
    ((calc_values_costs exampleFailingCost [] "A" ["1", "2"]).2 =
      ["1", "2"].filterMap (fun v =>
        if cfgGet [] "A" = some v then none
        else
          match exampleFailingCost (cfgSet [] "A" v) with
          | .ok _ => none
          | .error e => some e.stderr)) :=
  ⟨(tool_invocation_error_recovery.1 ⟨2, "xml", "boom"⟩).1 (by decide),
   (tool_invocation_error_recovery.1 ⟨0, "xml", ""⟩).2 (by decide),
   (tool_invocation_error_recovery.2 exampleFailingCost [] "A" ["1", "2"]).1,
   (tool_invocation_error_recovery.2 exampleFailingCost [] "A" ["1", "2"]).2⟩

/-! ## C6: external effects of the cost oracle -/

/-- An externally observable effect of one cost-oracle evaluation. -/
inductive ExtEffect where
  | writeConfig (cfg : Config)
  | invoke (args : List String)
deriving DecidableEq

/-- Modelled from the spec: config.inline_clang_format_config (imported by
scoring.py from config.py but missing from the snapshot) serializes the
configuration to an inline style string passed on the command line; it is a
pure serialization and writes nothing. -/
def inline_clang_format_config (c : Config) : String :=
  "\x7b" ++ String.intercalate ", " (c.map (fun p => p.1 ++ ": " ++ p.2)) ++
    "\x7d"

/-- Whether an effect is a write of the shared configuration resource. -/
def isWriteEffect : ExtEffect → Bool
  | .writeConfig _ => true
  | .invoke _ => false

/-- The external effect trace of scoring.eval_clang_format_cost: the
configuration travels inline in the style argument (or, with config=None,
clang-format reads the on-disk file), and the oracle issues one formatter
invocation per batch; it never writes the configuration resource. -/
def eval_clang_format_cost_effects (file_list : List String)
    (config : Option Config) (batch_max : Nat) : List ExtEffect :=
  let style_arg :=
    match config with
    | none => "--style=file"
    | some c => "--style=" ++ inline_clang_format_config c
  (chunkify file_list batch_max).map (fun files =>
    .invoke (["clang-format", "--output-replacements-xml", style_arg] ++ files))

/-- The external effect trace of the legacy script's
eval_clang_format_config_cost: save_clang_format_config writes the
configuration resource once, before the dispatcher issues one invocation
per batch of FILE_BATCH_SIZE = 10 files. -/
def legacy_eval_config_cost_effects (config : Config)
    (file_list : List String) : List ExtEffect :=
  .writeConfig config ::
    (chunkify file_list 10).map (fun files =>
      .invoke (["clang-format", "--style=file", "--output-replacements-xml"]
        ++ files))

theorem filter_write_map_invoke (g : List String → List String) :
    ∀ l : List (List String),
      (l.map (fun fs => ExtEffect.invoke (g fs))).filter isWriteEffect = [] := by
  intro l
  induction l with
  | nil => rfl
  | cons a t ih =>
      rw [List.map_cons, List.filter_cons_of_neg (by
        rw [isWriteEffect]
        exact Bool.false_ne_true)]
      exact ih

/-- C6 counterexample: a concrete call of the packaged cost oracle performs
zero writes of the configuration resource, not exactly one — the
configuration is passed inline on the command line instead. -/
theorem eval_cost_performs_no_config_write :
    ((eval_clang_format_cost_effects ["a.cpp", "b.cpp"]
        (some [("IndentWidth", "2")]) 10).filter isWriteEffect).length = 0 ∧
    ¬ ((eval_clang_format_cost_effects ["a.cpp", "b.cpp"]
        (some [("IndentWidth", "2")]) 10).filter isWriteEffect).length = 1 :=
  ⟨by decide, by decide⟩

/-- C6 (amended): the packaged oracle scoring.eval_clang_format_cost
performs no write of the shared configuration resource (the configuration
is passed inline); the legacy script's eval_clang_format_config_cost
performs exactly one such write, and that write is the very first external
effect of the call, preceding every batch invocation. -/
theorem config_write_discipline (config : Config) (file_list : List String)
    (batch_max : Nat) :
    ((eval_clang_format_cost_effects file_list (some config)
        batch_max).filter isWriteEffect = [] ∧
      (eval_clang_format_cost_effects file_list none
        batch_max).filter isWriteEffect = []) ∧
    (legacy_eval_config_cost_effects config file_list).filter isWriteEffect =
      [.writeConfig config] ∧
    (legacy_eval_config_cost_effects config file_list).head? =
      some (.writeConfig config) ∧
    (∀ e ∈ (legacy_eval_config_cost_effects config file_list).tail,
      isWriteEffect e = false) := by
  refine ⟨⟨?_, ?_⟩, ?_, rfl, ?_⟩
  · exact filter_write_map_invoke _ _
  · exact filter_write_map_invoke _ _
  · rw [legacy_eval_config_cost_effects, List.filter_cons_of_pos rfl,
      filter_write_map_invoke]
  · intro e he
    rw [legacy_eval_config_cost_effects, List.tail_cons] at he
    obtain ⟨fs, _, hfs⟩ := List.mem_map.mp he
    rw [← hfs]
    rfl

/-! ## C5: the incremental replacements-XML parse -/

/-- A SAX event delivered by the external XML parser to the content
handler: an element start carrying the parsed integer length attribute
(int(attrs.get('length', 0))), character data of a given UTF-8 length, or
an element end. -/
inductive SaxEvent where
  | startElem (name : String) (lengthAttr : Nat)
  | chars (n : Nat)
  | endElem (name : String)
deriving DecidableEq

/-- scoring.ReplacementsXmlHandler state: whether a replacement element is
open, the pending removed and inserted counters, and the accumulated
(removed, inserted) records. -/
structure ReplacementsXmlHandler where
  started : Bool
  numRemove : Nat
  numInsert : Nat
  replacements : List (Nat × Nat)
deriving DecidableEq

/-- A freshly constructed handler (Python leaves the counters
uninitialized until the first replacement start; they are never read
before that, so zero stands in for them). -/
def initHandler : ReplacementsXmlHandler :=
  ⟨false, 0, 0, []⟩

/-- scoring.ReplacementsXmlHandler startElement / characters / endElement,
verbatim: only a replacement start opens a record, characters accumulate
while open, any element end while open closes and stores the record. -/
def handleEvent (h : ReplacementsXmlHandler) : SaxEvent → ReplacementsXmlHandler
  | .startElem name len =>
      if name = "replacement" then
        { h with started := true, numRemove := len, numInsert := 0 }
      else h
  | .chars n =>
      if h.started then { h with numInsert := h.numInsert + n } else h
  | .endElem _ =>
      if h.started then
        { h with
          started := false,
          replacements := h.replacements ++ [(h.numRemove, h.numInsert)] }
      else h

/-- scoring.ReplacementsXmlHandler.get_total_cost: the sum over all records
of removed plus inserted characters. -/
def get_total_cost (h : ReplacementsXmlHandler) : Nat :=
  (h.replacements.map (fun p => p.1 + p.2)).sum

/-- Modelled from the spec: the internal state of the external incremental
XML parser (xml.sax expat reader) as far as the oracle observes it —
whether the parser object has been materialized by a reset, whether the
document root element has been seen, and the current element nesting
depth. -/
structure ExpatState where
  live : Bool
  rootSeen : Bool
  depth : Nat
deriving DecidableEq

/-- The parser as constructed by make_parser, before any reset or feed. -/
def freshExpat : ExpatState :=
  ⟨false, false, 0⟩

/-- Modelled from the spec: parser.reset() materializes a fresh parser. -/
def resetExpat : ExpatState :=
  ⟨true, false, 0⟩

/-- The structural parse failures the model distinguishes. -/
inductive ParseError where
  | junkAfterDocument
  | unbalancedEnd
  | noElementFound
deriving DecidableEq

/-- Modelled from the spec: feeding one SAX-level event through the
external parser.  A second top-level element after the document root is
the cross-batch nesting corruption the spec warns about (expat: junk after
document element); an element end at depth zero is unbalanced.  A feed on
a never-reset parser first materializes a fresh one, as ExpatParser.feed
does. -/
def feedEvent (st : ExpatState) (h : ReplacementsXmlHandler) (e : SaxEvent) :
    Except ParseError (ExpatState × ReplacementsXmlHandler) :=
  let st2 := if st.live then st else resetExpat
  match e with
  | .startElem name len =>
      if st2.rootSeen ∧ st2.depth = 0 then .error .junkAfterDocument
      else .ok (⟨true, true, st2.depth + 1⟩, handleEvent h (.startElem name len))
  | .chars n => .ok (⟨true, st2.rootSeen, st2.depth⟩, handleEvent h (.chars n))
  | .endElem name =>
      if st2.depth = 0 then .error .unbalancedEnd
      else .ok (⟨true, st2.rootSeen, st2.depth - 1⟩, handleEvent h (.endElem name))

/-- Feeding a sequence of events, stopping at the first parse error. -/
def feedEvents (st : ExpatState) (h : ReplacementsXmlHandler) :
    List SaxEvent → Except ParseError (ExpatState × ReplacementsXmlHandler)
  | [] => .ok (st, h)
  | e :: es =>
      match feedEvent st h e with
      | .error pe => .error pe
      | .ok (st2, h2) => feedEvents st2 h2 es

/-- Modelled from the spec: IncrementalParser.close finalizes the current
document — a no-op when the parser object was never materialized,
an error when no root element was seen or an element is still open,
and successful otherwise.  It does not touch the content handler. -/
def closeExpat (st : ExpatState) : Except ParseError Unit :=
  if st.live = false then .ok ()
  else if st.rootSeen = true ∧ st.depth = 0 then .ok ()
  else .error .noElementFound

/-- One line of formatter report text, abstracted to whether it starts
with the document-start marker and the SAX events the external parser
delivers for its text. -/
structure Line where
  marker : Bool
  events : List SaxEvent
deriving DecidableEq

/-- The feeding loop of scoring.eval_clang_format_cost: for every line, a
document-start marker first closes and resets the parser (the accumulated
handler records survive), then the line is fed. -/
def feedLines (st : ExpatState) (h : ReplacementsXmlHandler) :
    List Line → Except ParseError (ExpatState × ReplacementsXmlHandler)
  | [] => .ok (st, h)
  | line :: rest =>
      let step :=
        if line.marker then
          match closeExpat st with
          | .error pe => .error pe
          | .ok _ => feedEvents resetExpat h line.events
        else feedEvents st h line.events
      match step with
      | .error pe => .error pe
      | .ok (st2, h2) => feedLines st2 h2 rest

/-- The total cost produced by feeding the batch reports, in order,
through the single incremental parser, as eval_clang_format_cost does. -/
def parseReportsCost (batches : List (List Line)) : Except ParseError Nat :=
  match feedLines freshExpat initHandler batches.flatten with
  | .error pe => .error pe
  | .ok (_, h) => .ok (get_total_cost h)

/-- A well-formed batch report: its first line is the document-start
marker (delivering no element events of its own), no other line is a
marker, and feeding the report alone succeeds with a complete document —
root seen, every element closed, and the handler outside any replacement
record. -/
def WellFormedReport (r : List Line) : Prop :=
  (∃ rest, r = ⟨true, []⟩ :: rest ∧ ∀ l ∈ rest, l.marker = false) ∧
  ∃ st h, feedLines freshExpat initHandler r = .ok (st, h) ∧
    st.rootSeen = true ∧ st.depth = 0 ∧ h.started = false

/-- Two handler states that agree except that the replacement records of
the second carry a fixed extra prefix. -/
def HandlerShift (pre : List (Nat × Nat))
    (h0 h1 : ReplacementsXmlHandler) : Prop :=
  h1.started = h0.started ∧
  (h0.started = true → h1.numRemove = h0.numRemove ∧
    h1.numInsert = h0.numInsert) ∧
  h1.replacements = pre ++ h0.replacements

theorem handleEvent_shift (pre : List (Nat × Nat))
    (h0 h1 : ReplacementsXmlHandler) (e : SaxEvent)
    (hs : HandlerShift pre h0 h1) :
    HandlerShift pre (handleEvent h0 e) (handleEvent h1 e) := by
  obtain ⟨s0, r0, i0, l0⟩ := h0
  obtain ⟨s1, r1, i1, l1⟩ := h1
  obtain ⟨hst, hnum, hrep⟩ := hs
  simp only at hst hnum hrep
  subst hst
  subst hrep
  cases e with
  | startElem name len =>
      by_cases hn : name = "replacement"
      · simp only [handleEvent, if_pos hn]
        exact ⟨rfl, fun _ => ⟨rfl, rfl⟩, rfl⟩
      · simp only [handleEvent, if_neg hn]
        exact ⟨rfl, hnum, rfl⟩
  | chars n =>
      cases s1 with
      | false => exact ⟨rfl, hnum, rfl⟩
      | true =>
          obtain ⟨hr, hi⟩ := hnum rfl
          subst hr
          subst hi
          exact ⟨rfl, fun _ => ⟨rfl, rfl⟩, rfl⟩
  | endElem name =>
      cases s1 with
      | false => exact ⟨rfl, hnum, rfl⟩
      | true =>
          obtain ⟨hr, hi⟩ := hnum rfl
          subst hr
          subst hi
          exact ⟨rfl, fun hc => Bool.noConfusion hc,
            List.append_assoc pre l0 _⟩

theorem feedEvent_shift (pre : List (Nat × Nat)) (st : ExpatState)
    (h0 h1 : ReplacementsXmlHandler) (e : SaxEvent)
    (hs : HandlerShift pre h0 h1) :
    (∀ pe, feedEvent st h0 e = .error pe → feedEvent st h1 e = .error pe) ∧
    (∀ st2 h02, feedEvent st h0 e = .ok (st2, h02) →
      feedEvent st h1 e = .ok (st2, handleEvent h1 e) ∧
        HandlerShift pre h02 (handleEvent h1 e)) := by
  constructor
  · intro pe hp
    cases e with
    | startElem name len =>
        simp only [feedEvent] at hp ⊢
        by_cases hc : ((if st.live then st else resetExpat).rootSeen = true ∧
            (if st.live then st else resetExpat).depth = 0)
        · rw [if_pos hc] at hp ⊢
          exact hp
        · rw [if_neg hc] at hp
          exact Except.noConfusion hp
    | chars n =>
        simp only [feedEvent] at hp
        exact Except.noConfusion hp
    | endElem name =>
        simp only [feedEvent] at hp ⊢
        by_cases hc : (if st.live then st else resetExpat).depth = 0
        · rw [if_pos hc] at hp ⊢
          exact hp
        · rw [if_neg hc] at hp
          exact Except.noConfusion hp
  · intro st2 h02 hp
    cases e with
    | startElem name len =>
        simp only [feedEvent] at hp ⊢
        by_cases hc : ((if st.live then st else resetExpat).rootSeen = true ∧
            (if st.live then st else resetExpat).depth = 0)
        · rw [if_pos hc] at hp
          exact Except.noConfusion hp
        · rw [if_neg hc] at hp ⊢
          injection hp with hp2
          injection hp2 with hpa hpb
          subst hpa
          refine ⟨rfl, ?_⟩
          rw [← hpb]
          exact handleEvent_shift pre h0 h1 _ hs
    | chars n =>
        simp only [feedEvent] at hp ⊢
        injection hp with hp2
        injection hp2 with hpa hpb
        subst hpa
        refine ⟨rfl, ?_⟩
        rw [← hpb]
        exact handleEvent_shift pre h0 h1 _ hs
    | endElem name =>
        simp only [feedEvent] at hp ⊢
        by_cases hc : (if st.live then st else resetExpat).depth = 0
        · rw [if_pos hc] at hp
          exact Except.noConfusion hp
        · rw [if_neg hc] at hp ⊢
          injection hp with hp2
          injection hp2 with hpa hpb
          subst hpa
          refine ⟨rfl, ?_⟩
          rw [← hpb]
          exact handleEvent_shift pre h0 h1 _ hs

theorem feedEvents_shift (pre : List (Nat × Nat)) :
    ∀ (es : List SaxEvent) (st : ExpatState)
      (h0 h1 : ReplacementsXmlHandler), HandlerShift pre h0 h1 →
      ∀ st2 h02, feedEvents st h0 es = .ok (st2, h02) →
        ∃ h12, feedEvents st h1 es = .ok (st2, h12) ∧ HandlerShift pre h02 h12 := by
  intro es
  induction es with
  | nil =>
      intro st h0 h1 hs st2 h02 hp
      injection hp with hp2
      injection hp2 with hpa hpb
      subst hpa
      refine ⟨h1, rfl, ?_⟩
      rw [← hpb]
      exact hs
  | cons e es ih =>
      intro st h0 h1 hs st2 h02 hp
      rw [feedEvents] at hp
      rcases he : feedEvent st h0 e with pe | ⟨stm, h0m⟩
      · rw [he] at hp
        exact Except.noConfusion hp
      · rw [he] at hp
        obtain ⟨he1, hsm⟩ := (feedEvent_shift pre st h0 h1 e hs).2 stm h0m he
        rw [feedEvents, he1]
        exact ih stm h0m (handleEvent h1 e) hsm st2 h02 hp

theorem feedLines_shift (pre : List (Nat × Nat)) :
    ∀ (ls : List Line) (st : ExpatState)
      (h0 h1 : ReplacementsXmlHandler), HandlerShift pre h0 h1 →
      ∀ st2 h02, feedLines st h0 ls = .ok (st2, h02) →
        ∃ h12, feedLines st h1 ls = .ok (st2, h12) ∧ HandlerShift pre h02 h12 := by
  intro ls
  induction ls with
  | nil =>
      intro st h0 h1 hs st2 h02 hp
      injection hp with hp2
      injection hp2 with hpa hpb
      subst hpa
      refine ⟨h1, rfl, ?_⟩
      rw [← hpb]
      exact hs
  | cons line rest ih =>
      intro st h0 h1 hs st2 h02 hp
      rw [feedLines] at hp
      by_cases hm : line.marker = true
      · rcases hcl : closeExpat st with pe | u
        · rw [if_pos hm, hcl] at hp
          exact Except.noConfusion hp
        · rw [if_pos hm, hcl] at hp
          rcases hev : feedEvents resetExpat h0 line.events with pe | ⟨stm, h0m⟩
          · rw [hev] at hp
            exact Except.noConfusion hp
          · rw [hev] at hp
            obtain ⟨h1m, hev1, hsm⟩ :=
              feedEvents_shift pre line.events resetExpat h0 h1 hs stm h0m hev
            rw [feedLines, if_pos hm, hcl, hev1]
            exact ih stm h0m h1m hsm st2 h02 hp
      · rcases hev : feedEvents st h0 line.events with pe | ⟨stm, h0m⟩
        · rw [if_neg hm, hev] at hp
          exact Except.noConfusion hp
        · rw [if_neg hm, hev] at hp
          obtain ⟨h1m, hev1, hsm⟩ :=
            feedEvents_shift pre line.events st h0 h1 hs stm h0m hev
          rw [feedLines, if_neg hm, hev1]
          exact ih stm h0m h1m hsm st2 h02 hp

theorem feedLines_append (l1 l2 : List Line) :
    ∀ (st : ExpatState) (h : ReplacementsXmlHandler),
      feedLines st h (l1 ++ l2) =
        match feedLines st h l1 with
        | .error pe => .error pe
        | .ok (st2, h2) => feedLines st2 h2 l2 := by
  induction l1 with
  | nil =>
      intro st h
      rfl
  | cons line rest ih =>
      intro st h
      rw [List.cons_append, feedLines, feedLines]
      rcases hstep : (if line.marker then
          match closeExpat st with
          | .error pe => .error pe
          | .ok _ => feedEvents resetExpat h line.events
        else feedEvents st h line.events) with pe | ⟨stm, hm⟩
      · rw [hstep]
      · rw [hstep]
        exact ih stm hm

/-- C5: feeding two well-formed batch reports back-to-back through the
single incremental parser — whose document-start marker handling closes
and resets the parser state at the second report's start while keeping the
accumulated edit records — yields the same total cost as parsing the two
reports separately and summing the costs. -/
theorem streaming_parse_isolation (r1 r2 : List Line)
    (h1 : WellFormedReport r1) (h2 : WellFormedReport r2) :
    ∃ c1 c2, parseReportsCost [r1] = .ok c1 ∧ parseReportsCost [r2] = .ok c2 ∧
      parseReportsCost [r1, r2] = .ok (c1 + c2) := by
  obtain ⟨⟨rest1, hr1eq, hnm1⟩, st1, hh1, hrun1, hroot1, hdep1, hstart1⟩ := h1
  obtain ⟨⟨rest2, hr2eq, hnm2⟩, st2, hh2, hrun2, hroot2, hdep2, hstart2⟩ := h2
  have hflat1 : ([r1] : List (List Line)).flatten = r1 := by simp
  have hflat2 : ([r2] : List (List Line)).flatten = r2 := by simp
  have hflat12 : ([r1, r2] : List (List Line)).flatten = r1 ++ r2 := by simp
  have hclose : closeExpat st1 = .ok () := by
    rw [closeExpat]
    by_cases hl : st1.live = false
    · rw [if_pos hl]
    · rw [if_neg hl, if_pos ⟨hroot1, hdep1⟩]
  have hstep2 : feedLines st1 hh1 r2 = feedLines resetExpat hh1 rest2 := by
    rw [hr2eq, feedLines]
    simp only [hclose, if_true, feedEvents]
  have hstd2 : feedLines resetExpat initHandler rest2 = .ok (st2, hh2) := by
    rw [hr2eq] at hrun2
    exact hrun2
  have hshift : HandlerShift hh1.replacements initHandler hh1 :=
    ⟨hstart1, fun hc => Bool.noConfusion hc, (List.append_nil _).symm⟩
  obtain ⟨hh2x, hrun2x, hshift2⟩ :=
    feedLines_shift hh1.replacements rest2 resetExpat initHandler hh1 hshift
      st2 hh2 hstd2
  have hcomb : feedLines freshExpat initHandler (r1 ++ r2) = .ok (st2, hh2x) := by
    rw [feedLines_append, hrun1]
    dsimp only
    rw [hstep2]
    exact hrun2x
  have hcost : get_total_cost hh2x = get_total_cost hh1 + get_total_cost hh2 := by
    rw [get_total_cost, get_total_cost, get_total_cost, hshift2.2.2,
      List.map_append, List.sum_append]
  refine ⟨get_total_cost hh1, get_total_cost hh2, ?_, ?_, ?_⟩
  · rw [parseReportsCost, hflat1, hrun1]
  · rw [parseReportsCost, hflat2, hrun2]
  · rw [parseReportsCost, hflat12, hcomb]
    dsimp only
    rw [hcost]

/-- Concrete well-formed batch report used by the C5 witness: the marker
line followed by one replacements document holding a single edit record of
three removed and two inserted characters. -/
def exampleReport : List Line :=
  [⟨true, []⟩,
   ⟨false, [.startElem "replacements" 0, .startElem "replacement" 3,
     .chars 2, .endElem "replacement", .endElem "replacements"]⟩]

/-- Witness for C5: parsing the concrete report twice back-to-back costs
the sum of the individual costs. -/
theorem streaming_parse_isolation_witness :
    ∃ c1 c2, parseReportsCost [exampleReport] = .ok c1 ∧
      parseReportsCost [exampleReport] = .ok c2 ∧
      parseReportsCost [exampleReport, exampleReport] = .ok (c1 + c2) :=
  streaming_parse_isolation exampleReport exampleReport
    ⟨⟨_, rfl, by decide⟩, ⟨true, true, 0⟩, ⟨false, 3, 2, [(3, 2)]⟩,
      rfl, rfl, rfl, rfl⟩
    ⟨⟨_, rfl, by decide⟩, ⟨true, true, 0⟩, ⟨false, 3, 2, [(3, 2)]⟩,
      rfl, rfl, rfl, rfl⟩

/-! ## C9: termination of both search loops -/

theorem nodup_subset_length_le (l1 l2 : List String) (hnd : l1.Nodup)
    (hsub : ∀ k ∈ l1, k ∈ l2) : l1.length ≤ l2.length :=
  (hnd.subperm hsub).length_le

theorem optimizeLoop_term_aux (cf : Config → Nat)
    (sv : String → Config → List String) (tuneable : List String)
    (hne : tuneable ≠ []) :
    ∀ (mu : Nat) (cost : Nat) (visited rest : List String) (cfg : Config)
      (steps : List OptStep),
      visited.Nodup → (∀ k ∈ visited, k ∈ tuneable) →
      (∀ k ∈ rest, k ∈ tuneable) →
      cost * (tuneable.length + 1) + (tuneable.length - visited.length) ≤ mu →
      ∃ fuel r, optimizeLoop (totalCostFun cf) sv tuneable fuel cfg cost
        visited rest steps = some r := by
  intro mu
  induction mu using Nat.strong_induction_on with
  | _ mu ih =>
      intro cost visited rest cfg steps hnd hsubv hsubr hmu
      have hstep : ∀ (key : String) (rest2 : List String), key ∈ tuneable →
          (∀ k ∈ rest2, k ∈ tuneable) →
          ∃ fuel r, optimizeLoop (totalCostFun cf) sv tuneable fuel cfg cost
            visited (key :: rest2) steps = some r := by
        intro key rest2 hkey hsub2
        by_cases hv : visited.contains key = true
        · exact ⟨1, .ok cfg cost steps visited, by rw [optimizeLoop, if_pos hv]⟩
        · rcases hst : optStep (totalCostFun cf) sv cfg cost key with
            ⟨bv, bc, ev, dg⟩ | ⟨ev, dg⟩ | dg
          · obtain ⟨_, _, hbc⟩ :=
              optStep_commit_inv (totalCostFun cf) sv cfg cost key bv bc ev dg hst
            have hlt : bc * (tuneable.length + 1) +
                (tuneable.length - 1) < mu := by
              have h1 : bc + 1 ≤ cost := hbc
              have h2 : (bc + 1) * (tuneable.length + 1) ≤
                  cost * (tuneable.length + 1) :=
                Nat.mul_le_mul_right _ h1
              rw [Nat.add_mul, Nat.one_mul] at h2
              omega
            obtain ⟨fuel, r, hf⟩ := ih _ hlt bc [key] rest2
              (cfgSet cfg key bv)
              (steps ++ [⟨key, ev, dg, cost, some (bv, bc)⟩])
              (List.nodup_singleton key)
              (by intro k hk; rw [List.mem_singleton.mp hk]; exact hkey)
              hsub2 (Nat.le_refl _)
            exact ⟨fuel + 1, r, by rw [optimizeLoop, if_neg hv, hst]; exact hf⟩
          · have hkv : ¬ key ∈ visited := by
              intro hk
              apply hv
              simpa using hk
            have hndv : (key :: visited).Nodup := List.nodup_cons.mpr ⟨hkv, hnd⟩
            have hsubv2 : ∀ k ∈ key :: visited, k ∈ tuneable := by
              intro k hk
              rcases List.mem_cons.mp hk with h1 | h1
              · rw [h1]; exact hkey
              · exact hsubv k h1
            have hlen : (key :: visited).length ≤ tuneable.length :=
              nodup_subset_length_le _ _ hndv hsubv2
            have hlt : cost * (tuneable.length + 1) +
                (tuneable.length - (visited.length + 1)) < mu := by
              rw [List.length_cons] at hlen
              omega
            obtain ⟨fuel, r, hf⟩ := ih _ hlt cost (key :: visited) rest2 cfg
              (steps ++ [⟨key, ev, dg, cost, none⟩]) hndv hsubv2 hsub2
              (Nat.le_refl _)
            exact ⟨fuel + 1, r, by rw [optimizeLoop, if_neg hv, hst]; exact hf⟩
          · exact ⟨1, .valueError cfg
              (steps ++ [⟨key, [], dg, cost, none⟩]),
              by rw [optimizeLoop, if_neg hv, hst]⟩
      cases rest with
      | nil =>
          rcases htun : tuneable with _ | ⟨k, t⟩
          · exact absurd htun hne
          · obtain ⟨fuel, r, hf⟩ := hstep k t
              (by rw [htun]; exact List.mem_cons_self k t)
              (by intro k2 hk2; rw [htun]; exact List.mem_cons_of_mem k hk2)
            refine ⟨fuel + 1, r, ?_⟩
            rw [optimizeLoop]
            rw [htun] at hf
            exact hf
      | cons key rest2 =>
          exact hstep key rest2 (hsubr key (List.mem_cons_self key rest2))
            (fun k hk => hsubr k (List.mem_cons_of_mem key hk))

theorem cfgGet_eq_none_of_not_mem (c : Config) (k : String)
    (h : ¬ k ∈ cfgKeys c) : cfgGet c k = none := by
  induction c with
  | nil => rfl
  | cons p t ih =>
      obtain ⟨pk, pv⟩ := p
      have hne : pk ≠ k := by
        intro he
        exact h (by rw [he]; exact List.mem_cons_self k _)
      rw [cfgGet, if_neg hne]
      exact ih (fun hk => h (List.mem_cons_of_mem _ hk))

theorem cfgMem_of_mem_keys (c : Config) (k : String) (h : k ∈ cfgKeys c) :
    cfgMem c k = true := by
  induction c with
  | nil => simp [cfgKeys] at h
  | cons p t ih =>
      obtain ⟨pk, pv⟩ := p
      by_cases he : pk = k
      · rw [cfgMem, cfgGet, if_pos he]
        rfl
      · rw [cfgMem, cfgGet, if_neg he]
        rcases List.mem_cons.mp h with h1 | h1
        · exact absurd h1.symm he
        · exact ih h1

theorem cfgKeys_cfgDel_sublist (c : Config) (k : String) :
    List.Sublist (cfgKeys (cfgDel c k)) (cfgKeys c) := by
  induction c with
  | nil => exact List.Sublist.refl _
  | cons p t ih =>
      obtain ⟨pk, pv⟩ := p
      by_cases he : pk = k
      · rw [cfgDel, if_pos he]
        exact List.sublist_cons_self _ _
      · rw [cfgDel, if_neg he]
        exact List.Sublist.cons₂ _ ih

theorem cfgMem_cfgDel_self (c : Config) (k : String)
    (hnd : (cfgKeys c).Nodup) : cfgMem (cfgDel c k) k = false := by
  induction c with
  | nil => rfl
  | cons p t ih =>
      obtain ⟨pk, pv⟩ := p
      by_cases he : pk = k
      · rw [cfgDel, if_pos he]
        have hk : ¬ k ∈ cfgKeys t := by
          rw [← he]
          exact (List.nodup_cons.mp hnd).1
        rw [cfgMem, cfgGet_eq_none_of_not_mem t k hk]
        rfl
      · rw [cfgDel, if_neg he]
        rw [cfgMem, cfgGet, if_neg he]
        exact ih (List.nodup_cons.mp hnd).2

theorem cfgMem_cfgDel_ne (c : Config) (k k2 : String) (h : k2 ≠ k) :
    cfgMem (cfgDel c k) k2 = cfgMem c k2 := by
  rw [cfgMem, cfgMem, cfgGet_cfgDel_ne c k k2 h]

theorem cfgDel_length (c : Config) (k : String) (h : cfgMem c k = true) :
    (cfgDel c k).length + 1 = c.length := by
  induction c with
  | nil => simp [cfgMem, cfgGet] at h
  | cons p t ih =>
      obtain ⟨pk, pv⟩ := p
      by_cases he : pk = k
      · rw [cfgDel, if_pos he, List.length_cons]
      · rw [cfgDel, if_neg he]
        rw [cfgMem, cfgGet, if_neg he] at h
        rw [List.length_cons, List.length_cons, ← ih h]

theorem presentCount_cfgDel (tuneable : List String) (cfg : Config)
    (key : String) :
    tuneable.Nodup → key ∈ tuneable → cfgMem cfg key = true →
    (cfgKeys cfg).Nodup →
    (tuneable.filter (fun k => cfgMem (cfgDel cfg key) k)).length + 1 =
      (tuneable.filter (fun k => cfgMem cfg k)).length := by
  induction tuneable with
  | nil =>
      intro _ hkt
      simp at hkt
  | cons a t ih =>
      intro hnd hkt hkm hknd
      obtain ⟨hat, hndt⟩ := List.nodup_cons.mp hnd
      by_cases ha : a = key
      · subst ha
        rw [List.filter_cons_of_neg (by
            rw [cfgMem_cfgDel_self cfg a hknd]
            exact Bool.false_ne_true)]
        rw [List.filter_cons_of_pos hkm]
        rw [List.filter_congr (fun x hx => by
          exact cfgMem_cfgDel_ne cfg a x (fun he => hat (he ▸ hx)))]
        rw [List.length_cons]
      · have hkt2 : key ∈ t := by
          rcases List.mem_cons.mp hkt with h1 | h1
          · exact absurd h1.symm ha
          · exact h1
        have hpa : cfgMem (cfgDel cfg key) a = cfgMem cfg a :=
          cfgMem_cfgDel_ne cfg key a ha
        rcases hma : cfgMem cfg a with _ | _
        · rw [List.filter_cons_of_neg (by
              rw [hpa, hma]
              exact Bool.false_ne_true),
            List.filter_cons_of_neg (by rw [hma]; exact Bool.false_ne_true)]
          exact ih hndt hkt2 hkm hknd
        · rw [List.filter_cons_of_pos (by rw [hpa, hma]),
            List.filter_cons_of_pos hma]
          rw [List.length_cons, List.length_cons,
            ← ih hndt hkt2 hkm hknd]

theorem minimizeLoop_term_aux (cf : Config → Nat) (tuneable : List String)
    (hndt : tuneable.Nodup) :
    ∀ (mu : Nat) (cost : Nat) (visited : List String) (cfg : Config),
      visited.Nodup → (∀ k ∈ visited, k ∈ tuneable) →
      (cfgKeys cfg).Nodup →
      (∃ k ∈ tuneable, k ∈ visited ∨ cfgMem cfg k = true) →
      (cost * (tuneable.length + 1) +
          (tuneable.filter (fun k => cfgMem cfg k)).length) *
          (tuneable.length + 1) +
        (tuneable.length - visited.length) ≤ mu →
      ∀ (rest : List String), (∀ k ∈ rest, k ∈ tuneable) →
      ∀ (steps : List MinStep),
      ∃ fuel r, minimizeLoop (totalCostFun cf) tuneable fuel cfg cost visited
        rest steps = some r := by
  intro mu
  induction mu using Nat.strong_induction_on with
  | _ mu ih =>
      intro cost visited cfg hndv hsubv hknd hinv hmu
      have R : ∀ (key : String) (rest2 : List String) (steps2 : List MinStep),
          key ∈ tuneable → (∀ k ∈ rest2, k ∈ tuneable) →
          ¬ visited.contains key = true → cfgMem cfg key = true →
          ∃ fuel r, minimizeLoop (totalCostFun cf) tuneable fuel cfg cost
            visited (key :: rest2) steps2 = some r := by
        intro key rest2 steps2 hkey hsub2 hv hm
        have hcnd : ¬ (¬ cfgMem cfg key = true) := fun hc => hc hm
        by_cases hle : cf (cfgDel cfg key) ≤ cost
        · have hP := presentCount_cfgDel tuneable cfg key hndt hkey hm hknd
          have hmul : cf (cfgDel cfg key) * (tuneable.length + 1) ≤
              cost * (tuneable.length + 1) := Nat.mul_le_mul_right _ hle
          have hinner : cf (cfgDel cfg key) * (tuneable.length + 1) +
              (tuneable.filter
                (fun k => cfgMem (cfgDel cfg key) k)).length + 1 ≤
              cost * (tuneable.length + 1) +
              (tuneable.filter (fun k => cfgMem cfg k)).length := by omega
          have hmul2 : (cf (cfgDel cfg key) * (tuneable.length + 1) +
              (tuneable.filter
                (fun k => cfgMem (cfgDel cfg key) k)).length + 1) *
              (tuneable.length + 1) ≤
              (cost * (tuneable.length + 1) +
              (tuneable.filter (fun k => cfgMem cfg k)).length) *
              (tuneable.length + 1) := Nat.mul_le_mul_right _ hinner
          rw [Nat.add_mul, Nat.one_mul] at hmul2
          have hlt : (cf (cfgDel cfg key) * (tuneable.length + 1) +
              (tuneable.filter
                (fun k => cfgMem (cfgDel cfg key) k)).length) *
              (tuneable.length + 1) + (tuneable.length - 1) < mu := by omega
          obtain ⟨fuel, r, hf⟩ := ih _ hlt (cf (cfgDel cfg key)) [key]
            (cfgDel cfg key) (List.nodup_singleton key)
            (by intro k hk; rw [List.mem_singleton.mp hk]; exact hkey)
            (hknd.sublist (cfgKeys_cfgDel_sublist cfg key))
            ⟨key, hkey, Or.inl (List.mem_singleton.mpr rfl)⟩
            (Nat.le_refl _) rest2 hsub2
            (steps2 ++ [⟨key, cost, .removed (cf (cfgDel cfg key))⟩])
          refine ⟨fuel + 1, r, ?_⟩
          rw [minimizeLoop, if_neg hv, if_neg hcnd]
          dsimp only [totalCostFun]
          rw [if_pos hle]
          exact hf
        · have hkv : ¬ key ∈ visited := by
            intro hk
            exact hv (by simpa using hk)
          have hndv2 : (key :: visited).Nodup := List.nodup_cons.mpr ⟨hkv, hndv⟩
          have hsubv2 : ∀ k ∈ key :: visited, k ∈ tuneable := by
            intro k hk
            rcases List.mem_cons.mp hk with h1 | h1
            · rw [h1]
              exact hkey
            · exact hsubv k h1
          have hlen : (key :: visited).length ≤ tuneable.length :=
            nodup_subset_length_le _ _ hndv2 hsubv2
          have hlt : (cost * (tuneable.length + 1) +
              (tuneable.filter (fun k => cfgMem cfg k)).length) *
              (tuneable.length + 1) +
              (tuneable.length - (visited.length + 1)) < mu := by
            rw [List.length_cons] at hlen
            omega
          obtain ⟨fuel, r, hf⟩ := ih _ hlt cost (key :: visited) cfg hndv2
            hsubv2 hknd ⟨key, hkey, Or.inl (List.mem_cons_self key visited)⟩
            (by rw [List.length_cons]) rest2 hsub2
            (steps2 ++ [⟨key, cost, .kept (cf (cfgDel cfg key))⟩])
          refine ⟨fuel + 1, r, ?_⟩
          rw [minimizeLoop, if_neg hv, if_neg hcnd]
          dsimp only [totalCostFun]
          rw [if_neg hle]
          exact hf
      have L : ∀ (rest2 : List String), (∀ k ∈ rest2, k ∈ tuneable) →
          (∃ k ∈ rest2, k ∈ visited ∨ cfgMem cfg k = true) →
          ∀ (steps2 : List MinStep),
          ∃ fuel r, minimizeLoop (totalCostFun cf) tuneable fuel cfg cost
            visited rest2 steps2 = some r := by
        intro rest2
        induction rest2 with
        | nil =>
            intro _ hwit _
            obtain ⟨k, hk, _⟩ := hwit
            simp at hk
        | cons key rest2 ihL =>
            intro hsub2 hwit steps2
            have hkey : key ∈ tuneable := hsub2 key (List.mem_cons_self _ _)
            have hsub2x : ∀ k ∈ rest2, k ∈ tuneable :=
              fun k hk => hsub2 k (List.mem_cons_of_mem _ hk)
            by_cases hv : visited.contains key = true
            · exact ⟨1, .ok cfg cost steps2 visited,
                by rw [minimizeLoop, if_pos hv]⟩
            · by_cases hm : cfgMem cfg key = true
              · exact R key rest2 steps2 hkey hsub2x hv hm
              · have hwit2 : ∃ k ∈ rest2, k ∈ visited ∨ cfgMem cfg k = true := by
                  obtain ⟨k, hk, hko⟩ := hwit
                  rcases List.mem_cons.mp hk with h1 | h1
                  · exfalso
                    subst h1
                    rcases hko with h2 | h2
                    · exact hv (by simpa using h2)
                    · exact hm h2
                  · exact ⟨k, h1, hko⟩
                obtain ⟨fuel, r, hf⟩ := ihL hsub2x hwit2
                  (steps2 ++ [⟨key, cost, .keyError⟩])
                refine ⟨fuel + 1, r, ?_⟩
                rw [minimizeLoop, if_neg hv, if_pos hm]
                exact hf
      have L2 : ∀ (rest2 : List String), (∀ k ∈ rest2, k ∈ tuneable) →
          ∀ (steps2 : List MinStep),
          ∃ fuel r, minimizeLoop (totalCostFun cf) tuneable fuel cfg cost
            visited rest2 steps2 = some r := by
        intro rest2
        induction rest2 with
        | nil =>
            intro _ steps2
            obtain ⟨fuel, r, hf⟩ := L tuneable (fun k hk => hk) hinv steps2
            exact ⟨fuel + 1, r, by rw [minimizeLoop]; exact hf⟩
        | cons key rest2 ihL2 =>
            intro hsub2 steps2
            have hkey : key ∈ tuneable := hsub2 key (List.mem_cons_self _ _)
            have hsub2x : ∀ k ∈ rest2, k ∈ tuneable :=
              fun k hk => hsub2 k (List.mem_cons_of_mem _ hk)
            by_cases hv : visited.contains key = true
            · exact ⟨1, .ok cfg cost steps2 visited,
                by rw [minimizeLoop, if_pos hv]⟩
            · by_cases hm : cfgMem cfg key = true
              · exact R key rest2 steps2 hkey hsub2x hv hm
              · obtain ⟨fuel, r, hf⟩ := ihL2 hsub2x
                  (steps2 ++ [⟨key, cost, .keyError⟩])
                refine ⟨fuel + 1, r, ?_⟩
                rw [minimizeLoop, if_neg hv, if_pos hm]
                exact hf
      intro rest hsubr steps
      exact L2 rest hsubr steps

/-- Whether a minimizer trace record is an accepted removal. -/
def isRemovalStep (s : MinStep) : Bool :=
  match s.action with
  | .removed _ => true
  | _ => false

theorem minimizeLoop_removals_count (cf : CostFun) (tuneable : List String) :
    ∀ (fuel : Nat) (cfg : Config) (cost : Nat) (visited rest : List String)
      (steps : List MinStep) (cfg2 : Config) (cost2 : Nat)
      (steps2 : List MinStep) (visited2 : List String),
      minimizeLoop cf tuneable fuel cfg cost visited rest steps =
        some (.ok cfg2 cost2 steps2 visited2) →
      ∃ tr, steps2 = steps ++ tr ∧
        cfg2.length + (tr.filter isRemovalStep).length = cfg.length := by
  intro fuel
  induction fuel with
  | zero =>
      intro cfg cost visited rest steps cfg2 cost2 steps2 visited2 h
      exact Option.noConfusion h
  | succ fuel ih =>
      intro cfg cost visited rest steps cfg2 cost2 steps2 visited2 h
      cases rest with
      | nil =>
          exact ih cfg cost visited tuneable steps cfg2 cost2 steps2 visited2 h
      | cons key rest2 =>
          by_cases hv : visited.contains key = true
          · rw [minimizeLoop, if_pos hv] at h
            injection h with h2
            injection h2 with hcfg hcost hsteps hvis
            subst hcfg
            subst hsteps
            exact ⟨[], by simp, by simp⟩
          · by_cases hm : cfgMem cfg key = true
            · have hcnd : ¬ (¬ cfgMem cfg key = true) := fun hc => hc hm
              rcases hcf : cf (cfgDel cfg key) with e | nc
              · rw [minimizeLoop, if_neg hv, if_neg hcnd, hcf] at h
                obtain ⟨tr, hsteps, hcount⟩ := ih cfg cost visited rest2
                  (steps ++ [⟨key, cost, .runError e.stderr⟩])
                  cfg2 cost2 steps2 visited2 h
                refine ⟨⟨key, cost, .runError e.stderr⟩ :: tr, ?_, ?_⟩
                · rw [hsteps]
                  simp
                · rw [List.filter_cons_of_neg (by
                    rw [isRemovalStep]
                    exact Bool.false_ne_true)]
                  exact hcount
              · rw [minimizeLoop, if_neg hv, if_neg hcnd, hcf] at h
                dsimp only at h
                by_cases hle : nc ≤ cost
                · rw [if_pos hle] at h
                  obtain ⟨tr, hsteps, hcount⟩ := ih (cfgDel cfg key) nc [key]
                    rest2 (steps ++ [⟨key, cost, .removed nc⟩])
                    cfg2 cost2 steps2 visited2 h
                  refine ⟨⟨key, cost, .removed nc⟩ :: tr, ?_, ?_⟩
                  · rw [hsteps]
                    simp
                  · rw [List.filter_cons_of_pos (by rw [isRemovalStep])]
                    rw [List.length_cons, ← cfgDel_length cfg key hm]
                    omega
                · rw [if_neg hle] at h
                  obtain ⟨tr, hsteps, hcount⟩ := ih cfg cost (key :: visited)
                    rest2 (steps ++ [⟨key, cost, .kept nc⟩])
                    cfg2 cost2 steps2 visited2 h
                  refine ⟨⟨key, cost, .kept nc⟩ :: tr, ?_, ?_⟩
                  · rw [hsteps]
                    simp
                  · rw [List.filter_cons_of_neg (by
                      rw [isRemovalStep]
                      exact Bool.false_ne_true)]
                    exact hcount
            · have hcnd : ¬ cfgMem cfg key = true := fun hc => hm hc
              rw [minimizeLoop, if_neg hv, if_pos hcnd] at h
              obtain ⟨tr, hsteps, hcount⟩ := ih cfg cost visited rest2
                (steps ++ [⟨key, cost, .keyError⟩])
                cfg2 cost2 steps2 visited2 h
              refine ⟨⟨key, cost, .keyError⟩ :: tr, ?_, ?_⟩
              · rw [hsteps]
                simp
              · rw [List.filter_cons_of_neg (by
                  rw [isRemovalStep]
                  exact Bool.false_ne_true)]
                exact hcount

theorem ordered_diff_subset_first (a b : List String) :
    ∀ k ∈ ordered_diff a b, k ∈ a := by
  intro k hk
  exact (List.mem_filter.mp hk).1

theorem optimize_configuration_term (cf : Config → Nat)
    (sv : String → Config → List String) (rw_config : Config)
    (include_opts exclude_opts : Option (List String)) :
    ∃ fuel r, optimize_configuration (totalCostFun cf) sv fuel rw_config
      include_opts exclude_opts = some r := by
  by_cases hemp : (ordered_diff (include_opts.getD allTuneableKeys)
      (exclude_opts.getD (cfgKeys rw_config))).isEmpty = true
  · exact ⟨0, .skipped rw_config, by rw [optimize_configuration, if_pos hemp]⟩
  · have hne : ordered_diff (include_opts.getD allTuneableKeys)
        (exclude_opts.getD (cfgKeys rw_config)) ≠ [] := by
      intro he
      rw [he] at hemp
      exact hemp rfl
    obtain ⟨fuel, r, hf⟩ := optimizeLoop_term_aux cf sv _ hne
      (cf rw_config * ((ordered_diff (include_opts.getD allTuneableKeys)
        (exclude_opts.getD (cfgKeys rw_config))).length + 1) +
        (ordered_diff (include_opts.getD allTuneableKeys)
        (exclude_opts.getD (cfgKeys rw_config))).length)
      (cf rw_config) [] _ rw_config [] List.nodup_nil
      (by intro k hk; simp at hk) (fun k hk => hk) (by simp)
    exact ⟨fuel, r, by rw [optimize_configuration, if_neg hemp]; exact hf⟩

theorem minimize_configuration_term (cf : Config → Nat) (rw_config : Config)
    (frozen_options : List String) (hkeys : (cfgKeys rw_config).Nodup) :
    ∃ fuel r, minimize_configuration (totalCostFun cf) fuel rw_config
      frozen_options = some r := by
  by_cases hemp : (ordered_diff (cfgKeys rw_config)
      frozen_options).isEmpty = true
  · exact ⟨0, .skipped rw_config, by rw [minimize_configuration, if_pos hemp]⟩
  · have hndt : (ordered_diff (cfgKeys rw_config) frozen_options).Nodup :=
      hkeys.filter _
    have hhead : ∃ k, k ∈ ordered_diff (cfgKeys rw_config) frozen_options := by
      rcases he : ordered_diff (cfgKeys rw_config) frozen_options with _ | ⟨k, t⟩
      · rw [he] at hemp
        exact absurd rfl hemp
      · exact ⟨k, List.mem_cons_self k t⟩
    obtain ⟨k0, hk0⟩ := hhead
    have hinv : ∃ k ∈ ordered_diff (cfgKeys rw_config) frozen_options,
        k ∈ ([] : List String) ∨ cfgMem rw_config k = true :=
      ⟨k0, hk0, Or.inr (cfgMem_of_mem_keys rw_config k0
        (ordered_diff_subset_first _ _ k0 hk0))⟩
    obtain ⟨fuel, r, hf⟩ := minimizeLoop_term_aux cf _ hndt
      ((cf rw_config * ((ordered_diff (cfgKeys rw_config)
          frozen_options).length + 1) +
        ((ordered_diff (cfgKeys rw_config) frozen_options).filter
          (fun k => cfgMem rw_config k)).length) *
        ((ordered_diff (cfgKeys rw_config) frozen_options).length + 1) +
        (ordered_diff (cfgKeys rw_config) frozen_options).length)
      (cf rw_config) [] rw_config List.nodup_nil
      (by intro k hk; simp at hk) hkeys hinv (by simp) _ (fun k hk => hk) []
    exact ⟨fuel, r, by rw [minimize_configuration, if_neg hemp]; exact hf⟩

/-- C9: over any total cost oracle, both optimize_configuration and
minimize_configuration terminate — some finite fuel yields a result — and
the underlying measures hold: every accepted optimizer commit strictly
decreases the current best cost, and every accepted minimizer removal
weakly decreases the cost while strictly decreasing the number of
configuration keys (final key count plus number of removals equals the
entry key count). -/
theorem search_loops_terminate (cf : Config → Nat)
    (sv : String → Config → List String) (rw_config : Config)
    (include_opts exclude_opts : Option (List String))
    (frozen_options : List String) (hkeys : (cfgKeys rw_config).Nodup) :
    (∃ fuel r, optimize_configuration (totalCostFun cf) sv fuel rw_config
      include_opts exclude_opts = some r) ∧
    (∃ fuel r, minimize_configuration (totalCostFun cf) fuel rw_config
      frozen_options = some r) ∧
    (∀ (fuel : Nat) (cfg2 : Config) (cost2 : Nat) (steps2 : List OptStep)
        (visited2 : List String),
      optimize_configuration (totalCostFun cf) sv fuel rw_config include_opts
        exclude_opts = some (.ok cfg2 cost2 steps2 visited2) →
      ∀ s ∈ steps2, ∀ v nc, s.commitTo = some (v, nc) → nc < s.costBefore) ∧
    (∀ (fuel : Nat) (cfg2 : Config) (cost2 : Nat) (steps2 : List MinStep)
        (visited2 : List String),
      minimize_configuration (totalCostFun cf) fuel rw_config frozen_options =
        some (.ok cfg2 cost2 steps2 visited2) →
      (∀ s ∈ steps2, ∀ nc, s.action = .removed nc → nc ≤ s.costBefore) ∧
      cfg2.length + (steps2.filter isRemovalStep).length = rw_config.length) := by
  refine ⟨optimize_configuration_term cf sv rw_config include_opts exclude_opts,
    minimize_configuration_term cf rw_config frozen_options hkeys, ?_, ?_⟩
  · intro fuel cfg2 cost2 steps2 visited2 h
    rw [optimize_configuration] at h
    by_cases hemp : (ordered_diff (include_opts.getD allTuneableKeys)
        (exclude_opts.getD (cfgKeys rw_config))).isEmpty = true
    · rw [if_pos hemp] at h
      injection h with h2
      exact OptOutcome.noConfusion h2
    · rw [if_neg hemp] at h
      dsimp only [totalCostFun] at h
      obtain ⟨tr, hsteps, _, _, hcommits, _⟩ :=
        optimizeLoop_ok_spec (totalCostFun cf) sv _ fuel rw_config
          (cf rw_config) [] _ [] cfg2 cost2 steps2 visited2 h
      rw [List.nil_append] at hsteps
      intro s hs v nc hcm
      rw [hsteps] at hs
      exact hcommits s hs v nc hcm
  · intro fuel cfg2 cost2 steps2 visited2 h
    rw [minimize_configuration] at h
    by_cases hemp : (ordered_diff (cfgKeys rw_config)
        frozen_options).isEmpty = true
    · rw [if_pos hemp] at h
      injection h with h2
      exact MinOutcome.noConfusion h2
    · rw [if_neg hemp] at h
      dsimp only [totalCostFun] at h
      obtain ⟨_, _, ⟨tr, hsteps, htr⟩, _⟩ :=
        minimizeLoop_ok_spec (totalCostFun cf) _ fuel rw_config
          (cf rw_config) [] _ [] cfg2 cost2 steps2 visited2
          (fun k hk => hk) h
      obtain ⟨tr2, hsteps2, hcount⟩ :=
        minimizeLoop_removals_count (totalCostFun cf) _ fuel rw_config
          (cf rw_config) [] _ [] cfg2 cost2 steps2 visited2 h
      rw [List.nil_append] at hsteps hsteps2
      constructor
      · intro s hs nc ha
        rw [hsteps] at hs
        exact (htr s hs).1 nc ha
      · rw [hsteps2]
        exact hcount

/-- Witness for C9 at a concrete instance: with the concrete oracle, the
one-key tuneable set and the baseline holding only the key Z, both loops
terminate and the measure facts hold. -/
theorem search_loops_terminate_witness :
    (∃ fuel r, optimize_configuration (totalCostFun exampleCost)
      exampleSafeVals fuel [("Z", "9")] (some ["A"]) (some []) = some r) ∧
    (∃ fuel r, minimize_configuration (totalCostFun exampleCost) fuel
      [("Z", "9")] [] = some r) ∧
    (∀ (fuel : Nat) (cfg2 : Config) (cost2 : Nat) (steps2 : List OptStep)
        (visited2 : List String),
      optimize_configuration (totalCostFun exampleCost) exampleSafeVals fuel
        [("Z", "9")] (some ["A"]) (some []) =
        some (.ok cfg2 cost2 steps2 visited2) →
      ∀ s ∈ steps2, ∀ v nc, s.commitTo = some (v, nc) → nc < s.costBefore) ∧
    (∀ (fuel : Nat) (cfg2 : Config) (cost2 : Nat) (steps2 : List MinStep)
        (visited2 : List String),
      minimize_configuration (totalCostFun exampleCost) fuel [("Z", "9")] [] =
        some (.ok cfg2 cost2 steps2 visited2) →
      (∀ s ∈ steps2, ∀ nc, s.action = .removed nc → nc ≤ s.costBefore) ∧
      cfg2.length + (steps2.filter isRemovalStep).length =
        ([("Z", "9")] : Config).length) :=
  search_loops_terminate exampleCost exampleSafeVals [("Z", "9")]
    (some ["A"]) (some []) [] (by decide)

end ClangFormatDiscover
